import Mathlib

/-!
A shallow embedding of the core transform logic of the xlsx-json repository
(file `genjsonMulti.js`): the flat-key unflattener of the first conversion
script (`unflatten` / `setDeep`, lines 26-94), the variant unflattener of the
second script (lines 223-291, here `unflattenB`), and the flattener of the
generation script (`flattenJSON`, lines 395-415).

JavaScript values are modelled by the mutual family `JSValue` / `JFields` /
`JElems`.  Objects carry their properties as an association sequence in
property insertion order; arrays carry an element sequence (with explicit
holes, as produced by out-of-range index assignment) together with an
association sequence for non-index string properties.  A flat map (the
`flatObj` argument of `unflatten`, the `out` accumulator of `flattenJSON`)
is a `List (String × JSValue)` in `Object.entries` order.  Numbers are kept
as integers (the scripts only move cell values around), and the JS
conversions `Number(s)` on an all-digit string and `String(i)` on an index
are modelled by `digitsToNat` and `natToStr`.
-/

namespace XlsxJson

mutual

/-- Model of a JavaScript value as manipulated by the scripts.  `fn` is an
opaque function value (such as `Array.prototype.push`), identified by a tag. -/
inductive JSValue where
  | str (s : String)
  | num (n : Int)
  | bool (b : Bool)
  | null
  | undef
  | fn (tag : String)
  | obj (fields : JFields)
  | arr (elems : JElems) (props : JFields)

/-- The property list of an object, in insertion order, keys unique. -/
inductive JFields where
  | nil
  | cons (key : String) (val : JSValue) (rest : JFields)

/-- The element list of an array; `hole` is a missing element (reads as
`undefined`, skipped by `forEach` and absent from `Object.entries`). -/
inductive JElems where
  | nil
  | hole (rest : JElems)
  | elem (v : JSValue) (rest : JElems)

end

/-- The regex test `/^\d+$/.test(p)` (genjsonMulti.js lines 17 and 225). -/
def isIndex (p : String) : Bool :=
  !p.isEmpty && p.data.all Char.isDigit

/-- `Number(p)` for a string that passed `isIndex` (decimal digits). -/
def digitsToNat (s : String) : Nat :=
  s.data.foldl (fun acc c => acc * 10 + (c.toNat - 48)) 0

/-- The decimal digit character for `d < 10` (otherwise `'0'`). -/
def digitChar (d : Nat) : Char :=
  if d = 0 then '0' else if d = 1 then '1' else if d = 2 then '2'
  else if d = 3 then '3' else if d = 4 then '4' else if d = 5 then '5'
  else if d = 6 then '6' else if d = 7 then '7' else if d = 8 then '8'
  else if d = 9 then '9' else '0'

/-- Fuel-based decimal printer; the fuel only serves structural recursion
and is irrelevant once it exceeds the argument (`natToStrGo_stable`). -/
def natToStrGo : Nat → Nat → String
  | 0, _ => ""
  | fuel + 1, n =>
      if n < 10 then String.mk [digitChar n]
      else natToStrGo fuel (n / 10) ++ String.mk [digitChar (n % 10)]

/-- The JS number-to-string conversion `String(n)` / template `${n}` for a
non-negative integer: its decimal representation. -/
def natToStr (n : Nat) : String :=
  natToStrGo (n + 1) n

/-- `String.prototype.split('.')`: split at every dot; an empty string yields
`[""]`, and leading, trailing or consecutive dots yield empty segments. -/
def splitDotAux : List Char → List Char → List String
  | [], acc => [String.mk acc.reverse]
  | c :: rest, acc =>
      if c = '.' then String.mk acc.reverse :: splitDotAux rest []
      else splitDotAux rest (c :: acc)

/-- `String(flatKey).split('.')` (genjsonMulti.js lines 89 and 229). -/
def splitDot (s : String) : List String :=
  splitDotAux s.data []

/-- Dot-joining of path segments (the serialized form of a path). -/
def joinSegs : List String → String
  | [] => ""
  | [s] => s
  | s :: t :: rest => s ++ "." ++ joinSegs (t :: rest)

/-- The JS template `` parentKey ? `${parentKey}.${k}` : k `` (line 398). -/
def joinKey (parentKey k : String) : String :=
  if parentKey = "" then k else parentKey ++ "." ++ k

/-- No dot occurs in the string (such a string survives `splitDot` whole). -/
def dotFree (s : String) : Bool := s.data.all (fun c => c != '.')

/-- The key built by the iterated `joinKey` of the flatten loops along a
path of segments. -/
def pathKey (pk : String) (p : List String) : String :=
  p.foldl joinKey pk

/-- Property lookup on an object, first match. -/
def objGet : JFields → String → Option JSValue
  | .nil, _ => none
  | .cons k' v rest, k => if k' = k then some v else objGet rest k

/-- JS property assignment on an object: an existing key keeps its position
and is overwritten, a fresh key is appended (property insertion order). -/
def objSet : JFields → String → JSValue → JFields
  | .nil, k, v => .cons k v .nil
  | .cons k' v' rest, k, v =>
      if k' = k then .cons k v rest else .cons k' v' (objSet rest k v)

/-- Array element read `a[i]`: `none` when `i` is a hole or out of range
(JS `undefined`). -/
def arrGet : JElems → Nat → Option JSValue
  | .nil, _ => none
  | .hole _, 0 => none
  | .elem v _, 0 => some v
  | .hole rest, n + 1 => arrGet rest n
  | .elem _ rest, n + 1 => arrGet rest n

/-- Array element assignment `a[i] = v`: out-of-range indices extend the
array, filling the gap with holes. -/
def arrSet : JElems → Nat → JSValue → JElems
  | .nil, 0, v => .elem v .nil
  | .nil, n + 1, v => .hole (arrSet .nil n v)
  | .hole rest, 0, v => .elem v rest
  | .elem _ rest, 0, v => .elem v rest
  | .hole rest, n + 1, v => .hole (arrSet rest n v)
  | .elem e rest, n + 1, v => .elem e (arrSet rest n v)

/-- Lookup in a flat map (a JS object of dotted keys), first match. -/
def mapGet : List (String × JSValue) → String → Option JSValue
  | [], _ => none
  | (k', v) :: rest, k => if k' = k then some v else mapGet rest k

/-- Key assignment in a flat map: overwrite in place or append, as JS
property assignment does. -/
def mapSet : List (String × JSValue) → String → JSValue → List (String × JSValue)
  | [], k, v => [(k, v)]
  | (k', v') :: rest, k, v =>
      if k' = k then (k, v) :: rest else (k', v') :: mapSet rest k v

/-- The JS test `x != null && typeof x === 'object'`: true exactly for
objects and arrays (`typeof` of a function value is `'function'`). -/
def isContainer : JSValue → Bool
  | .obj _ => true
  | .arr _ _ => true
  | _ => false

/-- `Array.isArray`. -/
def JSValue.isArr : JSValue → Bool
  | .arr _ _ => true
  | _ => false

/-- Test for a plain (non-array) object. -/
def JSValue.isObj : JSValue → Bool
  | .obj _ => true
  | _ => false

/-- `v ?? ''` as used by `flattenJSON`: null and undefined become the empty
string, everything else is unchanged. -/
def coalesce (v : JSValue) : JSValue :=
  match v with
  | .null => .str ""
  | .undef => .str ""
  | v => v

/-- The property key a segment addresses on a plain object: JS coerces an
index segment through `Number`, so `cur[Number(p)]` reads and writes the
property named by the decimal rendering of the index. -/
def canonSeg (s : String) : String :=
  if isIndex s then natToStr (digitsToNat s) else s

/-- The child read the scripts perform for one segment: on an object,
`cur[p]` (respectively `cur[Number(p)]` for an index segment); on an array,
the element for an index segment and the string property otherwise;
`undefined` (here `none`) on scalars. -/
def childGet (cur : JSValue) (s : String) : Option JSValue :=
  match cur with
  | .obj f => objGet f (canonSeg s)
  | .arr el pr => if isIndex s then arrGet el (digitsToNat s) else objGet pr s
  | _ => none

/-- The child write the scripts perform for one segment (`cur[p] = v`),
addressing the same slot as `childGet`; on a non-container the sloppy-mode
assignment is a silent no-op. -/
def childSet (cur : JSValue) (s : String) (v : JSValue) : JSValue :=
  match cur with
  | .obj f => .obj (objSet f (canonSeg s) v)
  | .arr el pr =>
      if isIndex s then .arr (arrSet el (digitsToNat s) v) pr
      else .arr el (objSet pr s v)
  | c => c

/-- The fresh container `setDeep` creates ahead of a coming segment:
`nextIsIndex ? [] : {}` (source lines 73 and 79). -/
def freshFor (s : String) : JSValue :=
  if isIndex s then .arr .nil .nil else .obj .nil

/-- The ensure-container step of `setDeep` (source lines 72-74 and 78-80):
`if (cur[p] == null || typeof cur[p] !== 'object') cur[p] = nextIsIndex ? [] : {}`,
then the child is the slot's content.  A missing or null slot and a
non-container slot (scalar or function) are replaced by the fresh container;
an existing container of either kind is kept. -/
def ensureChild (cur : JSValue) (s nextSeg : String) : JSValue :=
  match childGet cur s with
  | some c => if isContainer c then c else freshFor nextSeg
  | none => freshFor nextSeg

/-- Functional rendering of `setDeep` from the first script (genjsonMulti.js
lines 29-85).  `cur` is the node the loop variable `cur` points at, and the
result is that node after the call.  `atRoot` records whether
`parentInfo.container` is still null: at the root the conversion-to-array
steps (source lines 44-51 and 63-71) are skipped and numeric keys land on
the root object.  The in-place slot conversions
(`parentInfo.container[parentInfo.key] = arr`) become pure replacement of
`cur`, since at that moment `parentInfo.container[parentInfo.key]` is `cur`
itself and `cur` is not an array, so the assigned `arr` is always a fresh
empty array; this replacement fires exactly when the current segment is an
index, `cur` is not an array, and the walk is below the root. -/
def setDeep (cur : JSValue) (atRoot : Bool) (parts : List String)
    (value : JSValue) : JSValue :=
  match parts with
  | [] => cur
  | [p] =>
      let cur1 := if isIndex p && !cur.isArr && !atRoot then .arr .nil .nil else cur
      childSet cur1 p value
  | p :: next :: rest =>
      let cur1 := if isIndex p && !cur.isArr && !atRoot then .arr .nil .nil else cur
      childSet cur1 p (setDeep (ensureChild cur1 p next) false (next :: rest) value)

/-- Pure path-write: walk the chain like `setDeep` does (taking existing
container children, creating fresh ones at missing or non-container slots)
and assign at the end - the conversion-free core of `setDeep`
(`setDeep_eq_setAt`). -/
def setAt (cur : JSValue) : List String → JSValue → JSValue
  | [], _ => cur
  | [s], v => childSet cur s v
  | s :: next :: rest, v => childSet cur s (setAt (ensureChild cur s next) (next :: rest) v)

/-- Compatibility of a path with the existing tree: along the walk of
`setDeep`, an index segment never meets an existing non-array container
below the root, so the conversion-to-array step never fires (once the walk
leaves the existing containers no further condition is needed - fresh
containers always match their segments). -/
def compatW : JSValue → Bool → List String → Prop
  | _, _, [] => True
  | cur, atRoot, [s] => atRoot = false → isIndex s = true → cur.isArr = true
  | cur, atRoot, s :: next :: rest =>
      (atRoot = false → isIndex s = true → cur.isArr = true) ∧
      (∀ c, childGet cur s = some c → isContainer c = true → compatW c false (next :: rest))

/-- `unflatten` of the first script (genjsonMulti.js lines 26-94).  The flat
object is an association list in `Object.entries` order; falsy (empty) keys
are skipped (line 88). -/
def unflatten (flatObj : List (String × JSValue)) : JSValue :=
  flatObj.foldl
    (fun root e => if e.1 = "" then root else setDeep root true (splitDot e.1) e.2)
    (.obj .nil)

mutual

/-- Body of `flattenJSON` (genjsonMulti.js lines 395-415): non-containers
return the accumulator unchanged (line 396); otherwise the `Object.entries`
loop runs over the fields, or - for a top-level array - over the present
elements under their decimal index keys followed by the string properties. -/
def flattenVal : JSValue → String → List (String × JSValue) → List (String × JSValue)
  | .obj fields, parentKey, out => flattenFields fields parentKey out
  | .arr elems props, parentKey, out =>
      flattenFields props parentKey (flattenTopElems elems 0 parentKey out)
  | _, _, out => out

/-- The `for (const [k, v] of Object.entries(obj))` loop of `flattenJSON`
(lines 397-413): plain objects recurse, arrays expand element-wise, anything
else is emitted at the joined key with `v ?? ''`.  The accumulator `out` is
a JS object, so re-emitting an existing key overwrites it in place. -/
def flattenFields : JFields → String → List (String × JSValue) → List (String × JSValue)
  | .nil, _, out => out
  | .cons k v rest, parentKey, out =>
      let nk := joinKey parentKey k
      let out1 :=
        match v with
        | .obj f => flattenFields f nk out
        | .arr el _ => flattenArrElems el 0 nk out
        | _ => mapSet out nk (coalesce v)
      flattenFields rest parentKey out1

/-- The `v.forEach((iv, i) => ...)` branch (lines 403-409): holes are skipped
by `forEach`; object elements recurse with the index appended to the key;
any other element - including a nested array - is stored wholesale under
`nk.i` after `?? ''`. -/
def flattenArrElems : JElems → Nat → String → List (String × JSValue) → List (String × JSValue)
  | .nil, _, _, out => out
  | .hole rest, i, nk, out => flattenArrElems rest (i + 1) nk out
  | .elem iv rest, i, nk, out =>
      let key := nk ++ "." ++ natToStr i
      let out1 :=
        match iv with
        | .obj f => flattenFields f key out
        | _ => mapSet out key (coalesce iv)
      flattenArrElems rest (i + 1) nk out1

/-- `Object.entries` iteration over a top-level array value: element keys are
the decimal indices, holes are absent, and the uniform loop body of
`flattenJSON` applies. -/
def flattenTopElems : JElems → Nat → String → List (String × JSValue) → List (String × JSValue)
  | .nil, _, _, out => out
  | .hole rest, i, parentKey, out => flattenTopElems rest (i + 1) parentKey out
  | .elem v rest, i, parentKey, out =>
      let nk := joinKey parentKey (natToStr i)
      let out1 :=
        match v with
        | .obj f => flattenFields f nk out
        | .arr el _ => flattenArrElems el 0 nk out
        | _ => mapSet out nk (coalesce v)
      flattenTopElems rest (i + 1) parentKey out1

end

/-- `flattenJSON` of the generation script (genjsonMulti.js lines 395-415). -/
def flattenJSON (o : JSValue) (parentKey : String)
    (out : List (String × JSValue)) : List (String × JSValue) :=
  flattenVal o parentKey out

/-- Functional rendering of the per-entry loop of the second script's
`unflatten` (genjsonMulti.js lines 231-288).  This variant has no parent
pointer, so its attempted array conversions never reach the tree: for a
terminal index segment on a non-array the value is assigned into a detached
array and lost (lines 238-244); for a non-terminal index segment on a
non-array all keys of the current object are deleted (line 276) and a `push`
property is installed (line 277) before the child is created under the
coerced numeric key. -/
def setDeepB (cur : JSValue) (parts : List String) (value : JSValue) : JSValue :=
  match parts with
  | [] => cur
  | [p] =>
      if isIndex p then
        match cur with
        | .arr el pr => .arr (arrSet el (digitsToNat p) value) pr
        | c => c
      else
        match cur with
        | .obj f => .obj (objSet f p value)
        | .arr el pr => .arr el (objSet pr p value)
        | c => c
  | p :: next :: rest =>
      let fresh : JSValue := if isIndex next then .arr .nil .nil else .obj .nil
      if isIndex p then
        let idx := digitsToNat p
        match cur with
        | .arr el pr =>
            let child := (arrGet el idx).getD .undef
            let child1 := if isContainer child then child else fresh
            .arr (arrSet el idx (setDeepB child1 (next :: rest) value)) pr
        | .obj _ =>
            let f1 : JFields := .cons "push" (.fn "Array.prototype.push") .nil
            .obj (objSet f1 (natToStr idx) (setDeepB fresh (next :: rest) value))
        | c => c
      else
        match cur with
        | .obj f =>
            let child := (objGet f p).getD .undef
            let child1 := if isContainer child then child else fresh
            .obj (objSet f p (setDeepB child1 (next :: rest) value))
        | .arr el pr =>
            let child := (objGet pr p).getD .undef
            let child1 := if isContainer child then child else fresh
            .arr el (objSet pr p (setDeepB child1 (next :: rest) value))
        | c => c

/-- `unflatten` of the second script (genjsonMulti.js lines 223-291). -/
def unflattenB (flatObj : List (String × JSValue)) : JSValue :=
  flatObj.foldl
    (fun root e => if e.1 = "" then root else setDeepB root (splitDot e.1) e.2)
    (.obj .nil)

/-- Build a field list from a `List` literal (notation helper). -/
def JFields.ofList : List (String × JSValue) → JFields
  | [] => .nil
  | (k, v) :: rest => .cons k v (JFields.ofList rest)

/-- Build an element list from a `List` literal (notation helper). -/
def JElems.ofList : List (Option JSValue) → JElems
  | [] => .nil
  | none :: rest => .hole (JElems.ofList rest)
  | some v :: rest => .elem v (JElems.ofList rest)

/-- Read the node at a path (the JS access `root.a[0].b` for path
`["a", "0", "b"]`); `none` when the path leaves the tree. -/
def walkGet (cur : JSValue) : List String → Option JSValue
  | [] => some cur
  | s :: rest =>
      match childGet cur s with
      | some c => walkGet c rest
      | none => none

mutual

/-- Structural equality test on values (used to state inequalities). -/
def beqVal : JSValue → JSValue → Bool
  | .str a, .str b => a == b
  | .num a, .num b => a == b
  | .bool a, .bool b => a == b
  | .null, .null => true
  | .undef, .undef => true
  | .fn a, .fn b => a == b
  | .obj f, .obj g => beqFields f g
  | .arr e p, .arr e' p' => beqElems e e' && beqFields p p'
  | _, _ => false

/-- Structural equality test on field lists. -/
def beqFields : JFields → JFields → Bool
  | .nil, .nil => true
  | .cons k v r, .cons k' v' r' => k == k' && beqVal v v' && beqFields r r'
  | _, _ => false

/-- Structural equality test on element lists. -/
def beqElems : JElems → JElems → Bool
  | .nil, .nil => true
  | .hole r, .hole r' => beqElems r r'
  | .elem v r, .elem v' r' => beqVal v v' && beqElems r r'
  | _, _ => false

end

mutual

/-- No array directly inside an array, anywhere in the value. -/
def noNestedArrVal : JSValue → Bool
  | .obj f => noNestedArrFields f
  | .arr el pr => noNestedArrElems el && noNestedArrFields pr
  | _ => true

/-- `noNestedArrVal` for every value of a field list. -/
def noNestedArrFields : JFields → Bool
  | .nil => true
  | .cons _ v r => noNestedArrVal v && noNestedArrFields r

/-- No element of this element list is an array, and recursively below. -/
def noNestedArrElems : JElems → Bool
  | .nil => true
  | .hole r => noNestedArrElems r
  | .elem v r => !v.isArr && noNestedArrVal v && noNestedArrElems r

end

/-! ### Well-formedness and path entries -/
/-- A well-formed mapping key: non-empty, dot-free and not purely numeric
(the spec's name segments). -/
def wfName (k : String) : Bool := !k.isEmpty && dotFree k && !isIndex k

/-- Key membership in a field list. -/
def fHasKey : JFields → String → Bool
  | .nil, _ => false
  | .cons k' _ r, k => k' == k || fHasKey r k

/-- Emptiness of a field list. -/
def isNilF : JFields → Bool
  | .nil => true
  | _ => false

/-- Emptiness of an element list. -/
def isNilE : JElems → Bool
  | .nil => true
  | _ => false

mutual

/-- Strict well-formedness of a mapping: distinct well-formed keys, non-empty
containers, arrays without holes and without string properties, and leaves
that are strings, numbers or booleans (an array directly inside an array is
kept wholesale and may be arbitrary). -/
def wfFields : JFields → Bool
  | .nil => true
  | .cons k v r => wfName k && !fHasKey r k && wfFieldVal v && wfFields r
def wfFieldVal : JSValue → Bool
  | .obj f => !isNilF f && wfFields f
  | .arr el pr => !isNilE el && isNilF pr && wfElems el
  | .str _ => true
  | .num _ => true
  | .bool _ => true
  | _ => false
def wfElems : JElems → Bool
  | .nil => true
  | .hole _ => false
  | .elem v r => wfElemVal v && wfElems r
def wfElemVal : JSValue → Bool
  | .obj f => !isNilF f && wfFields f
  | .arr _ _ => true
  | .str _ => true
  | .num _ => true
  | .bool _ => true
  | _ => false
end

/-- A well-formed tree for the round trip: a well-formed mapping at the root. -/
def wfTree : JSValue → Bool
  | .obj f => wfFields f
  | _ => false

mutual

/-- Key-shape well-formedness only: distinct well-formed keys on every object,
with leaves unconstrained (null, undefined and function leaves and array holes
are allowed).  `wfFields` implies this. -/
def keysOkFields : JFields → Bool
  | .nil => true
  | .cons k v r => wfName k && !fHasKey r k && keysOkVal v && keysOkFields r
def keysOkVal : JSValue → Bool
  | .obj f => keysOkFields f
  | .arr el _ => keysOkElems el
  | _ => true
def keysOkElems : JElems → Bool
  | .nil => true
  | .hole r => keysOkElems r
  | .elem v r => keysOkElemVal v && keysOkElems r
def keysOkElemVal : JSValue → Bool
  | .obj f => keysOkFields f
  | _ => true
end

mutual

/-- The path entries of a mapping: each leaf the flatten loops reach, as its
segment path paired with the raw leaf value, in the emission order of
`flattenJSON`. -/
def pEfields : JFields → List (List String × JSValue)
  | .nil => []
  | .cons k v r => blockF k v ++ pEfields r
def pEelems : JElems → Nat → List (List String × JSValue)
  | .nil, _ => []
  | .hole r, i => pEelems r (i + 1)
  | .elem v r, i => blockE i v ++ pEelems r (i + 1)
def blockF (k : String) (v : JSValue) : List (List String × JSValue) :=
  match v with
  | .obj f => (pEfields f).map (fun e => (k :: e.1, e.2))
  | .arr el _ => (pEelems el 0).map (fun e => (k :: e.1, e.2))
  | _ => [([k], v)]
def blockE (i : Nat) (v : JSValue) : List (List String × JSValue) :=
  match v with
  | .obj f => (pEfields f).map (fun e => (natToStr i :: e.1, e.2))
  | _ => [([natToStr i], v)]
end

/-- Concatenation of field lists. -/
def appendF : JFields → JFields → JFields
  | .nil, g => g
  | .cons k v r, g => .cons k v (appendF r g)

/-- Concatenation of element lists. -/
def appendE : JElems → JElems → JElems
  | .nil, g => g
  | .hole r, g => .hole (appendE r g)
  | .elem v r, g => .elem v (appendE r g)

/-- Length of an element list. -/
def lenE : JElems → Nat
  | .nil => 0
  | .hole r => lenE r + 1
  | .elem _ r => lenE r + 1

/-- Replay of the per-entry loop of `unflatten` over a list of path entries:
each value is assigned at its segment path with `setDeep`, after the `?? ''`
coalescing the flat map's values went through. -/
def foldSD (ar : Bool) (l : List (List String × JSValue)) (root : JSValue) : JSValue :=
  l.foldl (fun r e => setDeep r ar e.1 (coalesce e.2)) root

mutual

/-- `beqVal` is reflexive. -/
theorem beqVal_refl : ∀ a, beqVal a a = true
  | .str _ => by simp [beqVal]
  | .num _ => by simp [beqVal]
  | .bool _ => by simp [beqVal]
  | .null => by simp [beqVal]
  | .undef => by simp [beqVal]
  | .fn _ => by simp [beqVal]
  | .obj f => by simp [beqVal, beqFields_refl f]
  | .arr e p => by simp [beqVal, beqElems_refl e, beqFields_refl p]

/-- `beqFields` is reflexive. -/
theorem beqFields_refl : ∀ f, beqFields f f = true
  | .nil => by simp [beqFields]
  | .cons k v r => by simp [beqFields, beqVal_refl v, beqFields_refl r]

/-- `beqElems` is reflexive. -/
theorem beqElems_refl : ∀ e, beqElems e e = true
  | .nil => by simp [beqElems]
  | .hole r => by simp [beqElems, beqElems_refl r]
  | .elem v r => by simp [beqElems, beqVal_refl v, beqElems_refl r]

end

/-- Values on which `beqVal` computes `false` are distinct. -/
theorem ne_of_beqVal_false {a b : JSValue} (h : beqVal a b = false) : a ≠ b :=
  fun he => by rw [he, beqVal_refl] at h; exact Bool.noConfusion h

/-- Membership after a flat-map assignment: the new pair or an old member. -/
theorem mem_mapSet {kv : String × JSValue} (out : List (String × JSValue)) (k : String)
    (v : JSValue) (h : kv ∈ mapSet out k v) : kv = (k, v) ∨ kv ∈ out := by
  induction out with
  | nil => simp [mapSet] at h; simp [h]
  | cons e rest ih =>
      rw [mapSet] at h
      split at h
      · rcases List.mem_cons.1 h with h1 | h1
        · exact Or.inl h1
        · exact Or.inr (List.mem_cons_of_mem e h1)
      · rcases List.mem_cons.1 h with h1 | h1
        · exact Or.inr (h1 ▸ List.mem_cons_self e rest)
        · rcases ih h1 with h2 | h2
          · exact Or.inl h2
          · exact Or.inr (List.mem_cons_of_mem e h2)

/-- `?? ''` does not create containers. -/
theorem coalesce_nonContainer {v : JSValue} (h : isContainer v = false) :
    isContainer (coalesce v) = false := by
  cases v <;> simp_all [coalesce, isContainer]

/-- Emitting a coalesced non-container preserves container-freeness of the
accumulator. -/
theorem mapSet_coalesce_nc {v : JSValue} (hv : isContainer v = false)
    (out : List (String × JSValue)) (k : String)
    (hout : ∀ kv ∈ out, isContainer kv.2 = false) :
    ∀ kv ∈ mapSet out k (coalesce v), isContainer kv.2 = false := by
  intro kv hkv
  rcases mem_mapSet out _ _ hkv with h1 | h1
  · rw [h1]; exact coalesce_nonContainer hv
  · exact hout kv h1

mutual

/-- Values emitted by the entries loop are never containers, when no array
sits directly inside an array. -/
theorem flattenFields_nc : ∀ (f : JFields) (pk : String) (out : List (String × JSValue)),
    noNestedArrFields f = true → (∀ kv ∈ out, isContainer kv.2 = false) →
    ∀ kv ∈ flattenFields f pk out, isContainer kv.2 = false
  | .nil, _, _, _, hout => hout
  | .cons k v r, pk, out, h, hout => by
      rw [noNestedArrFields, Bool.and_eq_true] at h
      cases v
      case obj f =>
        exact flattenFields_nc r pk _ h.2 (flattenFields_nc f (joinKey pk k) out h.1 hout)
      case arr el pr =>
        have h1 : noNestedArrElems el = true := by
          have := h.1; rw [noNestedArrVal, Bool.and_eq_true] at this; exact this.1
        exact flattenFields_nc r pk _ h.2 (flattenArrElems_nc el 0 (joinKey pk k) out h1 hout)
      all_goals refine flattenFields_nc r pk _ h.2 (mapSet_coalesce_nc ?_ out _ hout)
      all_goals rfl

/-- Values emitted by the `forEach` branch are never containers, when no
array sits directly inside an array. -/
theorem flattenArrElems_nc : ∀ (el : JElems) (i : Nat) (nk : String)
    (out : List (String × JSValue)),
    noNestedArrElems el = true → (∀ kv ∈ out, isContainer kv.2 = false) →
    ∀ kv ∈ flattenArrElems el i nk out, isContainer kv.2 = false
  | .nil, _, _, _, _, hout => hout
  | .hole r, i, nk, out, h, hout => flattenArrElems_nc r (i + 1) nk out h hout
  | .elem v r, i, nk, out, h, hout => by
      simp only [noNestedArrElems, Bool.and_eq_true] at h
      cases v
      case obj f =>
        exact flattenArrElems_nc r (i + 1) nk _ h.2 (flattenFields_nc f _ out h.1.2 hout)
      case arr el2 pr => simp [JSValue.isArr] at h
      all_goals refine flattenArrElems_nc r (i + 1) nk _ h.2 (mapSet_coalesce_nc ?_ out _ hout)
      all_goals rfl

end

/-- Values emitted by the top-level array loop are never containers, when no
array sits directly inside an array. -/
theorem flattenTopElems_nc : ∀ (el : JElems) (i : Nat) (pk : String)
    (out : List (String × JSValue)),
    noNestedArrElems el = true → (∀ kv ∈ out, isContainer kv.2 = false) →
    ∀ kv ∈ flattenTopElems el i pk out, isContainer kv.2 = false
  | .nil, _, _, _, _, hout => hout
  | .hole r, i, pk, out, h, hout => flattenTopElems_nc r (i + 1) pk out h hout
  | .elem v r, i, pk, out, h, hout => by
      simp only [noNestedArrElems, Bool.and_eq_true] at h
      cases v
      case obj f =>
        exact flattenTopElems_nc r (i + 1) pk _ h.2 (flattenFields_nc f _ out h.1.2 hout)
      case arr el2 pr => simp [JSValue.isArr] at h
      all_goals refine flattenTopElems_nc r (i + 1) pk _ h.2 (mapSet_coalesce_nc ?_ out _ hout)
      all_goals rfl

/-- Values emitted by the body of `flattenJSON` are never containers, when
no array sits directly inside an array. -/
theorem flattenVal_nc (v : JSValue) (pk : String) (out : List (String × JSValue))
    (h : noNestedArrVal v = true) (hout : ∀ kv ∈ out, isContainer kv.2 = false) :
    ∀ kv ∈ flattenVal v pk out, isContainer kv.2 = false := by
  cases v
  case obj f => exact flattenFields_nc f pk out h hout
  case arr el pr =>
      rw [noNestedArrVal, Bool.and_eq_true] at h
      exact flattenFields_nc pr pk _ h.2 (flattenTopElems_nc el 0 pk out h.1 hout)
  all_goals exact hout

/-- `setDeep` at the root of the first script's `unflatten` always returns a
plain object: the conversion-to-array steps are skipped at the root. -/
theorem setDeep_root_obj (f : JFields) (parts : List String) (v : JSValue) :
    ∃ g, setDeep (.obj f) true parts v = .obj g := by
  match parts with
  | [] => exact ⟨f, rfl⟩
  | [p] =>
      rw [setDeep]
      simp only [Bool.not_true, Bool.and_false, Bool.false_eq_true, if_false]
      exact ⟨_, rfl⟩
  | p :: next :: rest =>
      rw [setDeep]
      simp only [Bool.not_true, Bool.and_false, Bool.false_eq_true, if_false]
      exact ⟨_, rfl⟩

/-- The fold of the first script's `unflatten` keeps the root an object. -/
theorem unflattenFold_obj (l : List (String × JSValue)) : ∀ f : JFields,
    ∃ g, l.foldl (fun root e => if e.1 = "" then root else setDeep root true (splitDot e.1) e.2)
      (.obj f) = .obj g := by
  induction l with
  | nil => intro f; exact ⟨f, rfl⟩
  | cons e rest ih =>
      intro f
      rw [List.foldl_cons]
      by_cases he : e.1 = ""
      · rw [if_pos he]; exact ih f
      · rw [if_neg he]
        obtain ⟨g, hg⟩ := setDeep_root_obj f (splitDot e.1) e.2
        rw [hg]; exact ih g

/-! ### Path-string and path-write lemmas -/

theorem natToStrGo_stable : ∀ f1 f2 n, n < f1 → n < f2 → natToStrGo f1 n = natToStrGo f2 n
  | f1 + 1, f2 + 1, n, h1, h2 => by
      rw [natToStrGo, natToStrGo]
      by_cases h : n < 10
      · rw [if_pos h, if_pos h]
      · rw [if_neg h, if_neg h, natToStrGo_stable f1 f2 (n / 10)
          (by omega) (by omega)]

theorem natToStr_eq (n : Nat) : natToStr n =
    if n < 10 then String.mk [digitChar n]
    else natToStr (n / 10) ++ String.mk [digitChar (n % 10)] := by
  rw [natToStr, natToStrGo]
  by_cases h : n < 10
  · rw [if_pos h, if_pos h]
  · rw [if_neg h, if_neg h, natToStr]
    have hd : n / 10 < n := Nat.div_lt_self (by omega) (by omega)
    rw [natToStrGo_stable n (n / 10 + 1) (n / 10) (by omega) (by omega)]

theorem digitChar_isDigit (d : Nat) : (digitChar d).isDigit = true := by
  unfold digitChar
  repeat' split
  all_goals decide

theorem digitChar_toNat (d : Nat) (h : d < 10) : (digitChar d).toNat - 48 = d := by
  interval_cases d <;> decide

theorem isDigit_ne_dot {c : Char} (h : c.isDigit = true) : c ≠ '.' := by
  intro he; rw [he] at h; exact Bool.noConfusion h

theorem natToStr_all_digits (n : Nat) : ∀ c ∈ (natToStr n).data, c.isDigit = true := by
  induction n using Nat.strong_induction_on with
  | _ n ih =>
      rw [natToStr_eq]
      by_cases h : n < 10
      · rw [if_pos h]
        intro c hc
        rw [List.mem_singleton] at hc
        subst hc
        exact digitChar_isDigit n
      · rw [if_neg h]
        intro c hc
        rw [show ((natToStr (n / 10) ++ String.mk [digitChar (n % 10)]).data
            = (natToStr (n / 10)).data ++ [digitChar (n % 10)]) from rfl] at hc
        rcases List.mem_append.1 hc with hc | hc
        · exact ih (n / 10) (Nat.div_lt_self (by omega) (by omega)) c hc
        · rw [List.mem_singleton] at hc
          subst hc
          exact digitChar_isDigit _

theorem natToStr_ne_empty (n : Nat) : natToStr n ≠ "" := by
  rw [natToStr_eq]
  by_cases h : n < 10
  · rw [if_pos h]
    intro he
    have := congrArg String.data he
    exact List.noConfusion this
  · rw [if_neg h]
    intro he
    have := congrArg String.data he
    rw [show ((natToStr (n / 10) ++ String.mk [digitChar (n % 10)]).data
        = (natToStr (n / 10)).data ++ [digitChar (n % 10)]) from rfl] at this
    rcases List.append_eq_nil.mp this with ⟨_, h2⟩
    exact List.noConfusion h2

theorem isIndex_natToStr (n : Nat) : isIndex (natToStr n) = true := by
  rw [isIndex, Bool.and_eq_true]
  constructor
  · rw [Bool.not_eq_true', Bool.eq_false_iff, ne_eq, String.isEmpty_iff]
    exact natToStr_ne_empty n
  · rw [List.all_eq_true]
    intro c hc
    exact natToStr_all_digits n c hc

theorem digitsToNat_append_char (l : List Char) (c : Char) :
    (l ++ [c]).foldl (fun acc ch => acc * 10 + (ch.toNat - 48)) 0 =
      (l.foldl (fun acc ch => acc * 10 + (ch.toNat - 48)) 0) * 10 + (c.toNat - 48) := by
  rw [List.foldl_append]
  rfl

theorem digitsToNat_natToStr (n : Nat) : digitsToNat (natToStr n) = n := by
  induction n using Nat.strong_induction_on with
  | _ n ih =>
      rw [natToStr_eq]
      by_cases h : n < 10
      · rw [if_pos h]
        show (0 * 10 + ((digitChar n).toNat - 48)) = n
        rw [Nat.zero_mul, Nat.zero_add]
        exact digitChar_toNat n h
      · rw [if_neg h]
        rw [digitsToNat]
        rw [show ((natToStr (n / 10) ++ String.mk [digitChar (n % 10)]).data
            = (natToStr (n / 10)).data ++ [digitChar (n % 10)]) from rfl]
        rw [digitsToNat_append_char]
        have h1 := ih (n / 10) (Nat.div_lt_self (by omega) (by omega))
        rw [digitsToNat] at h1
        rw [h1, digitChar_toNat (n % 10) (by omega)]
        omega

theorem natToStr_inj {m n : Nat} (h : natToStr m = natToStr n) : m = n := by
  have := congrArg digitsToNat h
  rwa [digitsToNat_natToStr, digitsToNat_natToStr] at this

theorem dotFree_natToStr (n : Nat) : dotFree (natToStr n) = true := by
  rw [dotFree, List.all_eq_true]
  intro c hc
  have := natToStr_all_digits n c hc
  simp only [bne_iff_ne, ne_eq]
  exact isDigit_ne_dot this

theorem string_mk_data (s : String) : String.mk s.data = s := rfl

theorem splitDotAux_no_dot : ∀ (l acc : List Char), (∀ c ∈ l, c ≠ '.') →
    splitDotAux l acc = [String.mk (acc.reverse ++ l)]
  | [], acc, _ => by simp [splitDotAux]
  | c :: rest, acc, h => by
      rw [splitDotAux, if_neg (h c (List.mem_cons_self c rest))]
      rw [splitDotAux_no_dot rest (c :: acc) (fun c' hc' => h c' (List.mem_cons_of_mem c hc'))]
      simp

theorem splitDot_of_dotFree {s : String} (h : dotFree s = true) : splitDot s = [s] := by
  rw [dotFree, List.all_eq_true] at h
  rw [splitDot, splitDotAux_no_dot s.data [] (fun c hc => by
    have := h c hc; simpa using this)]
  simp [string_mk_data]

theorem splitDotAux_ne_nil : ∀ (l acc : List Char), splitDotAux l acc ≠ []
  | [], acc => by simp [splitDotAux]
  | c :: rest, acc => by
      rw [splitDotAux]
      split
      · simp
      · exact splitDotAux_ne_nil rest (c :: acc)

theorem splitDot_ne_nil (s : String) : splitDot s ≠ [] :=
  splitDotAux_ne_nil s.data []

theorem splitDotAux_append : ∀ (xs ys acc : List Char),
    splitDotAux (xs ++ '.' :: ys) acc = splitDotAux xs acc ++ splitDotAux ys []
  | [], ys, acc => by simp [splitDotAux]
  | x :: xs, ys, acc => by
      rw [List.cons_append, splitDotAux, splitDotAux]
      by_cases h : x = '.'
      · rw [if_pos h, if_pos h, splitDotAux_append xs ys []]; rfl
      · rw [if_neg h, if_neg h, splitDotAux_append xs ys (x :: acc)]

theorem splitDot_append (a b : String) :
    splitDot (a ++ "." ++ b) = splitDot a ++ splitDot b := by
  rw [splitDot, splitDot, splitDot]
  rw [show (a ++ "." ++ b).data = a.data ++ '.' :: b.data by
    show (a.data ++ ['.']) ++ b.data = a.data ++ '.' :: b.data
    rw [List.append_assoc]; rfl]
  exact splitDotAux_append a.data b.data []

theorem joinSegs_cons_cons (s t : String) (r : List String) :
    joinSegs (s :: t :: r) = s ++ "." ++ joinSegs (t :: r) := rfl

theorem splitDot_joinSegs : ∀ (p : List String), p ≠ [] → (∀ s ∈ p, dotFree s = true) →
    splitDot (joinSegs p) = p
  | [], h, _ => absurd rfl h
  | [s], _, h => by
      rw [joinSegs, splitDot_of_dotFree (h s (List.mem_singleton_self s))]
  | s :: t :: r, _, h => by
      rw [joinSegs_cons_cons, splitDot_append,
        splitDot_of_dotFree (h s (List.mem_cons_self _ _)),
        splitDot_joinSegs (t :: r) (by simp) (fun x hx => h x (List.mem_cons_of_mem s hx))]
      rfl

theorem string_mk_append (l1 l2 : List Char) :
    String.mk l1 ++ String.mk l2 = String.mk (l1 ++ l2) := rfl

theorem joinSegs_splitDotAux : ∀ (l acc : List Char),
    joinSegs (splitDotAux l acc) = String.mk (acc.reverse ++ l)
  | [], acc => by simp [splitDotAux, joinSegs]
  | c :: rest, acc => by
      rw [splitDotAux]
      by_cases h : c = '.'
      · rw [if_pos h]
        obtain ⟨b, r, hbr⟩ : ∃ b r, splitDotAux rest [] = b :: r := by
          cases hsp : splitDotAux rest [] with
          | nil => exact absurd hsp (splitDotAux_ne_nil rest [])
          | cons b r => exact ⟨b, r, rfl⟩
        rw [hbr, joinSegs_cons_cons, ← hbr, joinSegs_splitDotAux rest []]
        rw [show ("." : String) = String.mk ['.'] from rfl]
        rw [string_mk_append, string_mk_append]
        rw [h]
        simp
      · rw [if_neg h, joinSegs_splitDotAux rest (c :: acc)]
        simp

theorem joinSegs_splitDot (s : String) : joinSegs (splitDot s) = s := by
  rw [splitDot, joinSegs_splitDotAux]
  simp [string_mk_data]

theorem splitDot_inj {a b : String} (h : splitDot a = splitDot b) : a = b := by
  have := congrArg joinSegs h
  rwa [joinSegs_splitDot, joinSegs_splitDot] at this

theorem joinKey_ne_empty {pk : String} (k : String) (h : pk ≠ "") : joinKey pk k ≠ "" := by
  rw [joinKey, if_neg h]
  intro he
  have := congrArg String.data he
  rw [show (pk ++ "." ++ k).data = pk.data ++ '.' :: k.data by
    show (pk.data ++ ['.']) ++ k.data = _; rw [List.append_assoc]; rfl] at this
  rcases List.append_eq_nil.mp this with ⟨_, h2⟩
  exact List.noConfusion h2

theorem pathKey_ne_empty : ∀ (p : List String) {pk : String}, pk ≠ "" → pathKey pk p ≠ ""
  | [], _, h => h
  | s :: rest, _, h => pathKey_ne_empty rest (joinKey_ne_empty s h)

theorem splitDot_joinKey {pk : String} (k : String) (h : pk ≠ "") (hk : dotFree k = true) :
    splitDot (joinKey pk k) = splitDot pk ++ [k] := by
  rw [joinKey, if_neg h, splitDot_append, splitDot_of_dotFree hk]

theorem splitDot_pathKey : ∀ (p : List String) {pk : String}, pk ≠ "" →
    (∀ s ∈ p, dotFree s = true) → splitDot (pathKey pk p) = splitDot pk ++ p
  | [], pk, _, _ => by simp [pathKey]
  | s :: rest, pk, h, hd => by
      rw [show pathKey pk (s :: rest) = pathKey (joinKey pk s) rest from rfl]
      rw [splitDot_pathKey rest (joinKey_ne_empty s h)
        (fun x hx => hd x (List.mem_cons_of_mem s hx))]
      rw [splitDot_joinKey s h (hd s (List.mem_cons_self s rest))]
      simp

theorem splitDot_pathKey_root : ∀ (p : List String) (k : String), k ≠ "" → dotFree k = true →
    (∀ s ∈ p, dotFree s = true) → splitDot (pathKey "" (k :: p)) = k :: p := by
  intro p k hk hkd hd
  rw [show pathKey "" (k :: p) = pathKey (joinKey "" k) p from rfl]
  rw [show joinKey "" k = k from rfl]
  rw [splitDot_pathKey p hk hd, splitDot_of_dotFree hkd]
  simp

theorem objGet_objSet_self : ∀ (f : JFields) (k : String) (v : JSValue),
    objGet (objSet f k v) k = some v
  | .nil, k, v => by simp [objSet, objGet]
  | .cons k' v' r, k, v => by
      rw [objSet]
      by_cases h : k' = k
      · rw [if_pos h, objGet, if_pos rfl]
      · rw [if_neg h, objGet, if_neg h]
        exact objGet_objSet_self r k v

theorem objGet_objSet_ne : ∀ (f : JFields) {k k' : String} (v : JSValue), k ≠ k' →
    objGet (objSet f k v) k' = objGet f k'
  | .nil, k, k', v, h => by simp [objSet, objGet, h]
  | .cons k2 v2 r, k, k', v, h => by
      rw [objSet]
      by_cases h2 : k2 = k
      · rw [if_pos h2, objGet, if_neg h, objGet, h2, if_neg h]
      · rw [if_neg h2, objGet, objGet]
        by_cases h3 : k2 = k'
        · rw [if_pos h3, if_pos h3]
        · rw [if_neg h3, if_neg h3]
          exact objGet_objSet_ne r v h

theorem objSet_objSet : ∀ (f : JFields) (k : String) (a b : JSValue),
    objSet (objSet f k a) k b = objSet f k b
  | .nil, k, a, b => by simp [objSet]
  | .cons k' v' r, k, a, b => by
      rw [objSet]
      by_cases h : k' = k
      · rw [if_pos h, objSet, if_pos rfl, objSet, if_pos h]
      · rw [if_neg h, objSet, if_neg h, objSet, if_neg h, objSet_objSet r k a b]

theorem arrGet_arrSet_self : ∀ (el : JElems) (i : Nat) (v : JSValue),
    arrGet (arrSet el i v) i = some v
  | .nil, 0, v => by simp [arrSet, arrGet]
  | .nil, n + 1, v => by rw [arrSet, arrGet]; exact arrGet_arrSet_self .nil n v
  | .hole r, 0, v => by simp [arrSet, arrGet]
  | .elem e r, 0, v => by simp [arrSet, arrGet]
  | .hole r, n + 1, v => by rw [arrSet, arrGet]; exact arrGet_arrSet_self r n v
  | .elem e r, n + 1, v => by rw [arrSet, arrGet]; exact arrGet_arrSet_self r n v

theorem arrGet_arrSet_ne : ∀ (el : JElems) {i i' : Nat} (v : JSValue), i ≠ i' →
    arrGet (arrSet el i v) i' = arrGet el i'
  | .nil, 0, 0, v, h => absurd rfl h
  | .nil, 0, n + 1, v, h => by rw [arrSet, arrGet, arrGet]; cases n <;> rfl
  | .nil, m + 1, 0, v, h => by rw [arrSet, arrGet, arrGet]
  | .nil, m + 1, n + 1, v, h => by
      rw [arrSet, arrGet, arrGet]
      exact arrGet_arrSet_ne .nil v (by omega)
  | .hole r, 0, 0, v, h => absurd rfl h
  | .elem e r, 0, 0, v, h => absurd rfl h
  | .hole r, 0, n + 1, v, h => by rw [arrSet, arrGet, arrGet]
  | .elem e r, 0, n + 1, v, h => by rw [arrSet, arrGet, arrGet]
  | .hole r, m + 1, 0, v, h => by rw [arrSet, arrGet, arrGet]
  | .elem e r, m + 1, 0, v, h => by rw [arrSet, arrGet, arrGet]
  | .hole r, m + 1, n + 1, v, h => by
      rw [arrSet, arrGet, arrGet]
      exact arrGet_arrSet_ne r v (by omega)
  | .elem e r, m + 1, n + 1, v, h => by
      rw [arrSet, arrGet, arrGet]
      exact arrGet_arrSet_ne r v (by omega)

theorem arrSet_arrSet : ∀ (el : JElems) (i : Nat) (a b : JSValue),
    arrSet (arrSet el i a) i b = arrSet el i b
  | .nil, 0, a, b => by simp [arrSet]
  | .nil, n + 1, a, b => by rw [arrSet, arrSet, arrSet, arrSet_arrSet .nil n a b]
  | .hole r, 0, a, b => by simp [arrSet]
  | .elem e r, 0, a, b => by simp [arrSet]
  | .hole r, n + 1, a, b => by rw [arrSet, arrSet, arrSet, arrSet_arrSet r n a b]
  | .elem e r, n + 1, a, b => by rw [arrSet, arrSet, arrSet, arrSet_arrSet r n a b]

theorem ensureChild_container (cur : JSValue) (s n : String) :
    isContainer (ensureChild cur s n) = true := by
  rw [ensureChild]
  cases h : childGet cur s with
  | none => cases hn : isIndex n <;> simp [freshFor, hn, isContainer]
  | some c =>
      by_cases hc : isContainer c = true
      · simp [hc]
      · simp [Bool.eq_false_iff.2 hc]
        cases hn : isIndex n <;> simp [freshFor, hn, isContainer]

theorem childSet_isArr (cur : JSValue) (s : String) (v : JSValue) :
    (childSet cur s v).isArr = cur.isArr := by
  cases cur with
  | arr el pr => simp only [childSet]; split <;> rfl
  | obj f => rfl
  | str a => rfl
  | num a => rfl
  | bool a => rfl
  | null => rfl
  | undef => rfl
  | fn a => rfl

theorem childSet_isContainer (cur : JSValue) (s : String) (v : JSValue) :
    isContainer (childSet cur s v) = isContainer cur := by
  cases cur with
  | arr el pr => simp only [childSet]; split <;> rfl
  | obj f => rfl
  | str a => rfl
  | num a => rfl
  | bool a => rfl
  | null => rfl
  | undef => rfl
  | fn a => rfl

theorem childGet_childSet_self {cur : JSValue} (h : isContainer cur = true)
    (s : String) (v : JSValue) : childGet (childSet cur s v) s = some v := by
  cases cur with
  | obj f => rw [childSet, childGet]; exact objGet_objSet_self f (canonSeg s) v
  | arr el pr =>
      rw [childSet]
      by_cases hi : isIndex s
      · rw [if_pos hi, childGet, if_pos hi]
        exact arrGet_arrSet_self el (digitsToNat s) v
      · rw [if_neg hi, childGet, if_neg hi]
        exact objGet_objSet_self pr s v
  | str _ => exact Bool.noConfusion h
  | num _ => exact Bool.noConfusion h
  | bool _ => exact Bool.noConfusion h
  | null => exact Bool.noConfusion h
  | undef => exact Bool.noConfusion h
  | fn _ => exact Bool.noConfusion h

theorem childSet_childSet (cur : JSValue) (s : String) (a b : JSValue) :
    childSet (childSet cur s a) s b = childSet cur s b := by
  cases cur with
  | obj f => rw [childSet, childSet, childSet, objSet_objSet]
  | arr el pr =>
      by_cases hi : isIndex s
      · rw [childSet, if_pos hi, childSet, if_pos hi, childSet, if_pos hi, arrSet_arrSet]
      · rw [childSet, if_neg hi, childSet, if_neg hi, childSet, if_neg hi, objSet_objSet]
  | str _ => rfl
  | num _ => rfl
  | bool _ => rfl
  | null => rfl
  | undef => rfl
  | fn _ => rfl

theorem childGet_fresh (s t : String) : childGet (freshFor s) t = none := by
  rw [freshFor]
  split
  · rw [childGet]; split <;> rfl
  · rfl

theorem compat_fresh (s : String) (rest : List String) :
    compatW (freshFor s) false (s :: rest) := by
  cases rest with
  | nil =>
      intro _ hi
      rw [freshFor, if_pos hi]; rfl
  | cons t r =>
      refine ⟨fun _ hi => by rw [freshFor, if_pos hi]; rfl, fun c hc => ?_⟩
      rw [childGet_fresh] at hc
      exact absurd hc (Option.noConfusion)

theorem ensureChild_of_some {cur : JSValue} {s : String} {c : JSValue} (n : String)
    (h : childGet cur s = some c) :
    ensureChild cur s n = if isContainer c then c else freshFor n := by
  rw [ensureChild, h]

theorem ensureChild_of_none {cur : JSValue} {s : String} (n : String)
    (h : childGet cur s = none) : ensureChild cur s n = freshFor n := by
  rw [ensureChild, h]

theorem compat_ensure {cur : JSValue} {s next : String} {rest : List String}
    (h : ∀ c, childGet cur s = some c → isContainer c = true → compatW c false (next :: rest)) :
    compatW (ensureChild cur s next) false (next :: rest) := by
  cases hc : childGet cur s with
  | none => rw [ensureChild_of_none next hc]; exact compat_fresh next rest
  | some c =>
      rw [ensureChild_of_some next hc]
      by_cases hcc : isContainer c = true
      · rw [if_pos hcc]; exact h c hc hcc
      · rw [if_neg hcc]; exact compat_fresh next rest

theorem conv_cond_false {cur : JSValue} {ar : Bool} {s : String}
    (h : ar = false → isIndex s = true → cur.isArr = true) :
    (isIndex s && !cur.isArr && !ar) = false := by
  cases ar with
  | true => simp
  | false =>
      by_cases hi : isIndex s = true
      · rw [hi, h rfl hi]; rfl
      · rw [Bool.not_eq_true] at hi
        simp [hi]

theorem setDeep_eq_setAt : ∀ (parts : List String) (cur : JSValue) (ar : Bool) (v : JSValue),
    compatW cur ar parts → setDeep cur ar parts v = setAt cur parts v
  | [], _, _, _, _ => rfl
  | [s], cur, ar, v, h => by
      rw [setDeep, conv_cond_false h]
      rfl
  | s :: next :: rest, cur, ar, v, h => by
      obtain ⟨h1, h2⟩ := h
      rw [setDeep, conv_cond_false h1]
      simp only [Bool.false_eq_true, if_false]
      rw [setDeep_eq_setAt (next :: rest) _ false v (compat_ensure h2)]
      rfl


theorem freshFor_container (s : String) : isContainer (freshFor s) = true := by
  rw [freshFor]; split <;> rfl

theorem freshFor_isArr_of_index {s : String} (h : isIndex s = true) :
    (freshFor s).isArr = true := by
  rw [freshFor, if_pos h]; rfl

theorem setAt_isContainer : ∀ (p : List String) (cur v : JSValue), p ≠ [] →
    isContainer (setAt cur p v) = isContainer cur
  | [], _, _, h => absurd rfl h
  | [s], cur, v, _ => childSet_isContainer cur s v
  | s :: _ :: _, cur, _, _ => childSet_isContainer cur s _

theorem setAt_isArr : ∀ (p : List String) (cur v : JSValue), p ≠ [] →
    (setAt cur p v).isArr = cur.isArr
  | [], _, _, h => absurd rfl h
  | [s], cur, v, _ => childSet_isArr cur s v
  | s :: _ :: _, cur, _, _ => childSet_isArr cur s _

theorem walkGet_setAt : ∀ (p : List String) (cur v : JSValue), p ≠ [] →
    isContainer cur = true → walkGet (setAt cur p v) p = some v
  | [], _, _, h, _ => absurd rfl h
  | [s], cur, v, _, hc => by
      rw [setAt, walkGet, childGet_childSet_self hc]
      rfl
  | s :: t :: r, cur, v, _, hc => by
      rw [setAt, walkGet, childGet_childSet_self hc]
      exact walkGet_setAt (t :: r) _ v (by simp) (ensureChild_container cur s t)

theorem walkGet_append : ∀ (p q : List String) (cur : JSValue),
    walkGet cur (p ++ q) =
      match walkGet cur p with
      | some c => walkGet c q
      | none => none
  | [], q, cur => by rw [List.nil_append, walkGet]
  | s :: p', q, cur => by
      rw [List.cons_append, walkGet, walkGet]
      cases childGet cur s with
      | none => rfl
      | some c => exact walkGet_append p' q c

theorem walkGet_scalar : ∀ (q : List String) {v : JSValue}, isContainer v = false →
    q ≠ [] → walkGet v q = none
  | [], _, _, h => absurd rfl h
  | s :: q', v, hv, _ => by
      rw [walkGet]
      have : childGet v s = none := by
        cases v with
        | obj f => exact Bool.noConfusion hv
        | arr el pr => exact Bool.noConfusion hv
        | str a => rfl
        | num a => rfl
        | bool a => rfl
        | null => rfl
        | undef => rfl
        | fn a => rfl
      rw [this]

theorem compat_obj_nil_true : ∀ (parts : List String), compatW (.obj .nil) true parts
  | [] => trivial
  | [s] => fun h _ => Bool.noConfusion h
  | s :: t :: r =>
      ⟨fun h _ => Bool.noConfusion h,
       fun c hc => by rw [show childGet (.obj .nil) s = none from rfl] at hc
                      exact absurd hc (Option.noConfusion)⟩

theorem setAt_compat_prefix : ∀ (p' : List String) (s : String) (q : List String)
    (cur w : JSValue) (ar : Bool),
    isContainer cur = true → childGet cur s = none →
    (ar = false → isIndex s = true → cur.isArr = true) →
    compatW (setAt cur ((s :: p') ++ q) w) ar (s :: p')
  | [], s, q, cur, w, ar, hc, hg, hk => by
      cases q with
      | nil =>
          intro har hi
          rw [List.append_nil, setAt, childSet_isArr]
          exact hk har hi
      | cons t q2 =>
          intro har hi
          rw [List.cons_append, List.nil_append, setAt, childSet_isArr]
          exact hk har hi
  | s2 :: p'', s, q, cur, w, ar, hc, hg, hk => by
      rw [List.cons_append, List.cons_append, setAt]
      refine ⟨fun har hi => by rw [childSet_isArr]; exact hk har hi, fun c hcc hcont => ?_⟩
      rw [childGet_childSet_self hc] at hcc
      obtain rfl := Option.some.inj hcc
      rw [ensureChild_of_none s2 hg]
      exact setAt_compat_prefix p'' s2 q (freshFor s2) w false
        (freshFor_container s2) (childGet_fresh s2 s2)
        (fun _ hi => freshFor_isArr_of_index hi)

theorem setAt_compat_through : ∀ (p' : List String) (s : String) (q : List String)
    (cur v : JSValue) (ar : Bool),
    isContainer cur = true → childGet cur s = none → isContainer v = false →
    (ar = false → isIndex s = true → cur.isArr = true) →
    compatW (setAt cur (s :: p') v) ar ((s :: p') ++ q)
  | [], s, q, cur, v, ar, hc, hg, hv, hk => by
      cases q with
      | nil =>
          intro har hi
          rw [setAt, childSet_isArr]
          exact hk har hi
      | cons t q2 =>
          rw [List.cons_append, List.nil_append, setAt]
          refine ⟨fun har hi => by rw [childSet_isArr]; exact hk har hi, fun c hcc hcont => ?_⟩
          rw [childGet_childSet_self hc] at hcc
          obtain rfl := Option.some.inj hcc
          rw [hv] at hcont
          exact Bool.noConfusion hcont
  | s2 :: p'', s, q, cur, v, ar, hc, hg, hv, hk => by
      rw [List.cons_append, setAt]
      refine ⟨fun har hi => by rw [childSet_isArr]; exact hk har hi, fun c hcc hcont => ?_⟩
      rw [childGet_childSet_self hc] at hcc
      obtain rfl := Option.some.inj hcc
      rw [ensureChild_of_none s2 hg]
      exact setAt_compat_through p'' s2 q (freshFor s2) v false
        (freshFor_container s2) (childGet_fresh s2 s2) hv
        (fun _ hi => freshFor_isArr_of_index hi)

theorem walkGet_setAt_prefix : ∀ (p q : List String) (cur w : JSValue), p ≠ [] → q ≠ [] →
    isContainer cur = true →
    ∃ c, walkGet (setAt cur (p ++ q) w) p = some c ∧ isContainer c = true
  | [], _, _, _, h, _, _ => absurd rfl h
  | [s], q, cur, w, _, hq, hc => by
      cases q with
      | nil => exact absurd rfl hq
      | cons t q2 =>
          rw [List.cons_append, List.nil_append, setAt, walkGet, childGet_childSet_self hc]
          refine ⟨_, rfl, ?_⟩
          rw [setAt_isContainer (t :: q2) _ w (by simp)]
          exact ensureChild_container cur s t
  | s :: s2 :: p', q, cur, w, _, hq, hc => by
      rw [List.cons_append, List.cons_append, setAt, walkGet, childGet_childSet_self hc]
      exact walkGet_setAt_prefix (s2 :: p') q (ensureChild cur s s2) w (by simp) hq
        (ensureChild_container cur s s2)

theorem unflatten_two {k1 k2 : String} (a b : JSValue) (h1 : k1 ≠ "") (h2 : k2 ≠ "") :
    unflatten [(k1, a), (k2, b)] =
      setDeep (setDeep (.obj .nil) true (splitDot k1) a) true (splitDot k2) b := by
  rw [unflatten, List.foldl_cons, List.foldl_cons, List.foldl_nil]
  rw [if_neg h1, if_neg h2]

theorem append_dot_ne_empty (a b : String) : a ++ "." ++ b ≠ "" := by
  intro he
  have := congrArg String.data he
  rw [show (a ++ "." ++ b).data = a.data ++ '.' :: b.data by
    show (a.data ++ ['.']) ++ b.data = _; rw [List.append_assoc]; rfl] at this
  rcases List.append_eq_nil.mp this with ⟨_, hx⟩
  exact List.noConfusion hx



/-! ### Claim theorems -/

/-- C2, counterexample: on the spec's own example `{"a.b.c": "x", "a.0.b": "y"}`
the unflattener does not raise any `ConflictingSchema` error (the embedded
`unflatten` is a total function with no error channel, faithfully to the
source, which contains no `throw`): it returns `{"a": [{"b": "y"}]}`, and the
data of the entry at `a.b.c` - indeed the whole mapping under `a` - is
silently dropped. -/
theorem c2_no_conflict_error :
    unflatten [("a.b.c", .str "x"), ("a.0.b", .str "y")] =
        .obj (.cons "a" (.arr (.elem (.obj (.cons "b" (.str "y") .nil)) .nil) .nil) .nil) ∧
      walkGet (unflatten [("a.b.c", .str "x"), ("a.0.b", .str "y")]) ["a", "b", "c"] = none :=
  ⟨rfl, rfl⟩

/-- C4, counterexample: a FlatMap whose top-level segments are all pure
numeric (`{"0": "x", "1": "y"}`) does not produce a root-level sequence:
`unflatten` returns a root mapping with the numeric-looking string keys. -/
theorem c4_numeric_root_not_array :
    unflatten [("0", .str "x"), ("1", .str "y")] =
        .obj (.cons "0" (.str "x") (.cons "1" (.str "y") .nil)) ∧
      (unflatten [("0", .str "x"), ("1", .str "y")]).isArr = false :=
  ⟨rfl, rfl⟩

/-- C4, amended: the root returned by `unflatten` is always a plain mapping,
for every FlatMap - all-numeric top-level segments included (they land on
the root object as numeric-looking string keys, source line 50); a root
sequence is never produced. -/
theorem c4_root_always_mapping (m : List (String × JSValue)) :
    (unflatten m).isObj = true := by
  obtain ⟨g, hg⟩ := unflattenFold_obj m .nil
  rw [unflatten, hg]; rfl

/-- C5, counterexample: flattening `{"a": [["x"]]}` does not recurse into the
nested sequence child; it stores the inner array itself as the value at
`a.0`, so a container value occurs in the flat map. -/
theorem c5_nested_array_value :
    flattenJSON (.obj (.cons "a"
        (.arr (.elem (.arr (.elem (.str "x") .nil) .nil) .nil) .nil) .nil)) "" [] =
        [("a.0", .arr (.elem (.str "x") .nil) .nil)] ∧
      isContainer (.arr (.elem (.str "x") .nil) .nil) = true :=
  ⟨rfl, rfl⟩

/-- C5, amended: flattening a sequence recurses only into its plain-object
children (with the position appended to the key); a child that is itself a
sequence is stored wholesale.  Consequently, whenever no sequence occurs
directly inside a sequence, every value stored in the resulting FlatMap is
a non-container scalar. -/
theorem c5_values_non_container (v : JSValue) (pk : String)
    (h : noNestedArrVal v = true) :
    ∀ kv ∈ flattenJSON v pk [], isContainer kv.2 = false :=
  flattenVal_nc v pk [] h (by simp)

/-- Witness for `c5_values_non_container` at `{"a": [1, 2]}`. -/
theorem c5_values_non_container_witness :
    noNestedArrVal (.obj (.cons "a" (.arr (.elem (.num 1) (.elem (.num 2) .nil)) .nil) .nil)) = true ∧
      ∀ kv ∈ flattenJSON (.obj (.cons "a" (.arr (.elem (.num 1) (.elem (.num 2) .nil)) .nil) .nil)) "" [],
        isContainer kv.2 = false :=
  ⟨rfl, c5_values_non_container _ "" rfl⟩

/-- C6, counterexample: in `{"a": [[null]]}` the null leaf at path `a.0.0` is
not emitted at all (no entry, let alone an empty-string one): the inner
array is stored wholesale at `a.0`. -/
theorem c6_nested_null_leaf_omitted :
    mapGet (flattenJSON (.obj (.cons "a"
        (.arr (.elem (.arr (.elem .null .nil) .nil) .nil) .nil) .nil)) "" []) "a.0.0" = none ∧
      mapGet (flattenJSON (.obj (.cons "a"
        (.arr (.elem (.arr (.elem .null .nil) .nil) .nil) .nil) .nil)) "" []) "a.0" =
        some (.arr (.elem .null .nil) .nil) :=
  ⟨rfl, rfl⟩

/-- C7, counterexample: an entry whose key is whitespace-only (empty after
trimming but not empty) is not skipped by `unflatten`: it creates a
property named by the whitespace, so the result differs from that of the
empty FlatMap. -/
theorem c7_whitespace_key_not_skipped :
    unflatten [(" ", .str "x")] ≠ unflatten [] :=
  ne_of_beqVal_false (by rfl)

/-- C7, amended: `unflatten` skips exactly the entries whose path string is
the empty string, as a no-op and without error, wherever they occur in the
FlatMap.  (Whitespace-only keys are only dropped upstream, where the key
cell is trimmed before the FlatMap is built, source line 138.) -/
theorem c7_empty_key_skipped (l1 l2 : List (String × JSValue)) (v : JSValue) :
    unflatten (l1 ++ ("", v) :: l2) = unflatten (l1 ++ l2) := by
  unfold unflatten
  rw [List.foldl_append, List.foldl_append, List.foldl_cons]
  simp

/-- C8: on the FlatMap `{"0": "x", "name": "y"}`, whose top-level paths mix
numeric and non-numeric segments, the two unflatten variants disagree: the
first keeps `"0"` as a root object key, the second loses the `"0"` entry
altogether (its terminal index assignment goes into a detached array), so
the two implementations are not extensionally equal. -/
theorem c8_variants_differ :
    unflatten [("0", .str "x"), ("name", .str "y")] ≠
      unflattenB [("0", .str "x"), ("name", .str "y")] :=
  ne_of_beqVal_false (by rfl)

/-- C10: on null, undefined, or any non-container scalar input, `flattenJSON`
returns the empty FlatMap (and, being total like the source function, which
only does an early return on this branch, raises no error). -/
theorem c10_non_container_empty (v : JSValue) (pk : String)
    (h : isContainer v = false) : flattenJSON v pk [] = [] := by
  cases v <;> simp [isContainer] at h <;> rfl

/-- Witness for `c10_non_container_empty` at the number 5. -/
theorem c10_non_container_empty_witness :
    isContainer (.num 5) = false ∧ flattenJSON (.num 5) "key" [] = [] :=
  ⟨rfl, c10_non_container_empty (.num 5) "key" rfl⟩

/-- C9: for a FlatMap holding exactly a key `K` (the path P, scalar value)
and its proper extension `K.Q` (the path P.Q), the entry processed later
wins.  First conjunct - `K.Q` first, then `K`: the scalar lands at P,
overwriting the container built for P.Q, whose value is gone (reading on
through P.Q fails).  Second conjunct - `K` first, then `K.Q`: the scalar at
P is replaced by a fresh container (the node at P is a container, hence not
the scalar) and `K.Q`'s value is reachable at P.Q.  No error is raised in
either order (the embedded `unflatten` is total, like the source, which has
no throw). -/
theorem c9_later_entry_wins (K Q : String) (v w : JSValue) (hK : K ≠ "") (hv : isContainer v = false) :
    (walkGet (unflatten [(K ++ "." ++ Q, w), (K, v)]) (splitDot K) = some v ∧
      walkGet (unflatten [(K ++ "." ++ Q, w), (K, v)]) (splitDot (K ++ "." ++ Q)) = none) ∧
    ((∃ c, walkGet (unflatten [(K, v), (K ++ "." ++ Q, w)]) (splitDot K) = some c ∧
        isContainer c = true) ∧
      walkGet (unflatten [(K, v), (K ++ "." ++ Q, w)]) (splitDot (K ++ "." ++ Q)) = some w) := by
  have hK' : K ++ "." ++ Q ≠ "" := append_dot_ne_empty K Q
  have hsplit : splitDot (K ++ "." ++ Q) = splitDot K ++ splitDot Q := splitDot_append K Q
  obtain ⟨s, p', hP⟩ : ∃ s p', splitDot K = s :: p' := by
    cases h : splitDot K with
    | nil => exact absurd h (splitDot_ne_nil K)
    | cons s p' => exact ⟨s, p', rfl⟩
  have hPne : splitDot K ≠ [] := splitDot_ne_nil K
  have hQne : splitDot Q ≠ [] := splitDot_ne_nil Q
  have hPQne : splitDot K ++ splitDot Q ≠ [] := by
    rw [hP]; simp
  constructor
  · -- order 1: P.Q first, then P
    rw [unflatten_two w v hK' hK, hsplit]
    have e1 : setDeep (.obj .nil) true (splitDot K ++ splitDot Q) w =
        setAt (.obj .nil) (splitDot K ++ splitDot Q) w :=
      setDeep_eq_setAt _ _ _ _ (compat_obj_nil_true _)
    rw [e1]
    have hT1c : isContainer (setAt (.obj .nil) (splitDot K ++ splitDot Q) w) = true := by
      rw [setAt_isContainer _ _ _ hPQne]; rfl
    have e2 : setDeep (setAt (.obj .nil) (splitDot K ++ splitDot Q) w) true (splitDot K) v =
        setAt (setAt (.obj .nil) (splitDot K ++ splitDot Q) w) (splitDot K) v := by
      refine setDeep_eq_setAt _ _ _ _ ?_
      rw [hP]
      exact setAt_compat_prefix p' s (splitDot Q) (.obj .nil) w true rfl
        (by rw [show childGet (.obj .nil) s = none from rfl]) (fun h _ => Bool.noConfusion h)
    rw [e2]
    constructor
    · exact walkGet_setAt _ _ v hPne hT1c
    · rw [walkGet_append]
      rw [walkGet_setAt _ _ v hPne hT1c]
      exact walkGet_scalar (splitDot Q) hv hQne
  · -- order 2: P first, then P.Q
    rw [unflatten_two v w hK hK', hsplit]
    have e1 : setDeep (.obj .nil) true (splitDot K) v =
        setAt (.obj .nil) (splitDot K) v :=
      setDeep_eq_setAt _ _ _ _ (compat_obj_nil_true _)
    rw [e1]
    have hT2c : isContainer (setAt (.obj .nil) (splitDot K) v) = true := by
      rw [setAt_isContainer _ _ _ hPne]; rfl
    have e2 : setDeep (setAt (.obj .nil) (splitDot K) v) true (splitDot K ++ splitDot Q) w =
        setAt (setAt (.obj .nil) (splitDot K) v) (splitDot K ++ splitDot Q) w := by
      refine setDeep_eq_setAt _ _ _ _ ?_
      rw [hP]
      exact setAt_compat_through p' s (splitDot Q) (.obj .nil) v true rfl
        (by rw [show childGet (.obj .nil) s = none from rfl]) hv (fun h _ => Bool.noConfusion h)
    rw [e2]
    constructor
    · exact walkGet_setAt_prefix _ _ _ w hPne hQne hT2c
    · exact walkGet_setAt _ _ w hPQne hT2c

/-- Witness for `c9_later_entry_wins` at K = "a", Q = "b", v = "y", w = "x". -/
theorem c9_later_entry_wins_witness :
    (("a" : String) ≠ "" ∧ isContainer (JSValue.str "y") = false) ∧
    ((walkGet (unflatten [("a" ++ "." ++ "b", JSValue.str "x"), ("a", JSValue.str "y")])
        (splitDot "a") = some (JSValue.str "y") ∧
      walkGet (unflatten [("a" ++ "." ++ "b", JSValue.str "x"), ("a", JSValue.str "y")])
        (splitDot ("a" ++ "." ++ "b")) = none) ∧
    ((∃ c, walkGet (unflatten [("a", JSValue.str "y"), ("a" ++ "." ++ "b", JSValue.str "x")])
        (splitDot "a") = some c ∧ isContainer c = true) ∧
      walkGet (unflatten [("a", JSValue.str "y"), ("a" ++ "." ++ "b", JSValue.str "x")])
        (splitDot ("a" ++ "." ++ "b")) = some (JSValue.str "x"))) :=
  ⟨⟨by decide, rfl⟩, c9_later_entry_wins "a" "b" (.str "y") (.str "x") (by decide) rfl⟩

/-! ### Round-trip machinery -/
theorem appendF_nil : ∀ g : JFields, appendF g .nil = g
  | .nil => rfl
  | .cons k v r => by rw [appendF, appendF_nil r]

theorem appendF_assoc : ∀ a b c : JFields, appendF (appendF a b) c = appendF a (appendF b c)
  | .nil, _, _ => rfl
  | .cons k v r, b, c => by rw [appendF, appendF, appendF, appendF_assoc r b c]

theorem appendE_nil : ∀ g : JElems, appendE g .nil = g
  | .nil => rfl
  | .hole r => by rw [appendE, appendE_nil r]
  | .elem v r => by rw [appendE, appendE_nil r]

theorem appendE_assoc : ∀ a b c : JElems, appendE (appendE a b) c = appendE a (appendE b c)
  | .nil, _, _ => rfl
  | .hole r, b, c => by rw [appendE, appendE, appendE, appendE_assoc r b c]
  | .elem v r, b, c => by rw [appendE, appendE, appendE, appendE_assoc r b c]

theorem fHasKey_appendF : ∀ (a b : JFields) (k : String),
    fHasKey (appendF a b) k = (fHasKey a k || fHasKey b k)
  | .nil, b, k => by rw [appendF, fHasKey, Bool.false_or]
  | .cons k' v r, b, k => by
      rw [appendF, fHasKey, fHasKey, fHasKey_appendF r b k, Bool.or_assoc]

theorem objSet_fresh : ∀ (g : JFields) {k : String} (v : JSValue), fHasKey g k = false →
    objSet g k v = appendF g (.cons k v .nil)
  | .nil, k, v, _ => rfl
  | .cons k' v' r, k, v, h => by
      rw [fHasKey, Bool.or_eq_false_iff] at h
      rw [objSet, if_neg (by simpa using h.1), appendF, objSet_fresh r v h.2]

theorem arrGet_lenE : ∀ e : JElems, arrGet e (lenE e) = none
  | .nil => rfl
  | .hole r => by rw [lenE, arrGet]; exact arrGet_lenE r
  | .elem v r => by rw [lenE, arrGet]; exact arrGet_lenE r

theorem arrSet_lenE : ∀ (e : JElems) (v : JSValue),
    arrSet e (lenE e) v = appendE e (.elem v .nil)
  | .nil, v => rfl
  | .hole r, v => by rw [lenE, arrSet, appendE, arrSet_lenE r v]
  | .elem e' r, v => by rw [lenE, arrSet, appendE, arrSet_lenE r v]

theorem lenE_snoc : ∀ (e : JElems) (v : JSValue), lenE (appendE e (.elem v .nil)) = lenE e + 1
  | .nil, _ => rfl
  | .hole r, v => by rw [appendE, lenE, lenE, lenE_snoc r v]
  | .elem _ r, v => by rw [appendE, lenE, lenE, lenE_snoc r v]

theorem setDeep_isContainer : ∀ (parts : List String) (cur : JSValue) (ar : Bool) (v : JSValue),
    isContainer cur = true → parts ≠ [] → isContainer (setDeep cur ar parts v) = true
  | [], _, _, _, _, h => absurd rfl h
  | [s], cur, ar, v, hc, _ => by
      rw [setDeep]
      cases hcond : (isIndex s && !cur.isArr && !ar) with
      | true => rw [if_pos rfl, childSet_isContainer]; rfl
      | false => rw [if_neg Bool.false_ne_true, childSet_isContainer]; exact hc
  | s :: t :: r, cur, ar, v, hc, _ => by
      rw [setDeep]
      cases hcond : (isIndex s && !cur.isArr && !ar) with
      | true => rw [if_pos rfl, childSet_isContainer]; rfl
      | false => rw [if_neg Bool.false_ne_true, childSet_isContainer]; exact hc

theorem blockF_mem {e : List String × JSValue} {k : String} {v : JSValue}
    (he : e ∈ blockF k v) : ∃ p', e.1 = k :: p' := by
  cases v
  case obj f => rcases List.mem_map.1 he with ⟨e', _, rfl⟩; exact ⟨e'.1, rfl⟩
  case arr el pr => rcases List.mem_map.1 he with ⟨e', _, rfl⟩; exact ⟨e'.1, rfl⟩
  all_goals exact ⟨[], by rw [List.mem_singleton.1 he]⟩

theorem blockE_mem {e : List String × JSValue} {i : Nat} {v : JSValue}
    (he : e ∈ blockE i v) : ∃ p', e.1 = natToStr i :: p' := by
  cases v
  case obj f => rcases List.mem_map.1 he with ⟨e', _, rfl⟩; exact ⟨e'.1, rfl⟩
  all_goals exact ⟨[], by rw [List.mem_singleton.1 he]⟩

theorem pEfields_head : ∀ (f : JFields), ∀ e ∈ pEfields f,
    ∃ k p', e.1 = k :: p' ∧ fHasKey f k = true
  | .nil, e, he => absurd he (by rw [pEfields]; exact List.not_mem_nil e)
  | .cons k v r, e, he => by
      rw [pEfields] at he
      rcases List.mem_append.1 he with hb | hr
      · obtain ⟨p', hp⟩ := blockF_mem hb
        exact ⟨k, p', hp, by rw [fHasKey]; simp⟩
      · obtain ⟨k', p', he', hk'⟩ := pEfields_head r e hr
        exact ⟨k', p', he', by rw [fHasKey, hk', Bool.or_true]⟩

theorem pEelems_head : ∀ (el : JElems) (i : Nat), ∀ e ∈ pEelems el i,
    ∃ j p', e.1 = natToStr j :: p' ∧ i ≤ j
  | .nil, _, e, he => absurd he (by rw [pEelems]; exact List.not_mem_nil e)
  | .hole r, i, e, he => by
      rw [pEelems] at he
      obtain ⟨j, p', he', hj⟩ := pEelems_head r (i + 1) e he
      exact ⟨j, p', he', by omega⟩
  | .elem v r, i, e, he => by
      rw [pEelems] at he
      rcases List.mem_append.1 he with hb | hr
      · obtain ⟨p', hp⟩ := blockE_mem hb
        exact ⟨i, p', hp, Nat.le_refl i⟩
      · obtain ⟨j, p', he', hj⟩ := pEelems_head r (i + 1) e hr
        exact ⟨j, p', he', by omega⟩

theorem wfName_not_index {k : String} (h : wfName k = true) : isIndex k = false := by
  rw [wfName] at h
  simp only [Bool.and_eq_true, Bool.not_eq_true'] at h
  exact h.2

theorem wfName_dotFree {k : String} (h : wfName k = true) : dotFree k = true := by
  rw [wfName] at h
  simp only [Bool.and_eq_true, Bool.not_eq_true'] at h
  exact h.1.2

theorem wfName_ne_empty {k : String} (h : wfName k = true) : k ≠ "" := by
  rw [wfName] at h
  simp only [Bool.and_eq_true, Bool.not_eq_true'] at h
  intro he
  rw [he] at h
  exact Bool.noConfusion h.1.1

theorem wfName_of_fHasKey : ∀ (f : JFields) (k : String), keysOkFields f = true →
    fHasKey f k = true → wfName k = true
  | .cons k' v r, k, hw, hk => by
      rw [keysOkFields] at hw
      simp only [Bool.and_eq_true] at hw
      rw [fHasKey, Bool.or_eq_true] at hk
      rcases hk with hk | hk
      · rw [show k' = k from by simpa using hk] at hw
        exact hw.1.1.1
      · exact wfName_of_fHasKey r k hw.2 hk

theorem objGet_none_of_fHasKey_false : ∀ (f : JFields) (k : String),
    fHasKey f k = false → objGet f k = none
  | .nil, _, _ => rfl
  | .cons k' v r, k, h => by
      rw [fHasKey, Bool.or_eq_false_iff] at h
      rw [objGet, if_neg (by simpa using h.1)]
      exact objGet_none_of_fHasKey_false r k h.2

mutual
theorem wf_keysOkFields : ∀ f, wfFields f = true → keysOkFields f = true
  | .nil, _ => rfl
  | .cons k v r, h => by
      rw [wfFields] at h
      simp only [Bool.and_eq_true] at h
      rw [keysOkFields]
      simp only [Bool.and_eq_true]
      exact ⟨⟨⟨h.1.1.1, h.1.1.2⟩, wf_keysOkVal v h.1.2⟩, wf_keysOkFields r h.2⟩
theorem wf_keysOkVal : ∀ v, wfFieldVal v = true → keysOkVal v = true
  | .obj f, h => by
      rw [wfFieldVal, Bool.and_eq_true] at h
      rw [keysOkVal]
      exact wf_keysOkFields f h.2
  | .arr el pr, h => by
      rw [wfFieldVal] at h
      simp only [Bool.and_eq_true] at h
      rw [keysOkVal]
      exact wf_keysOkElems el h.2
  | .str _, _ => rfl
  | .num _, _ => rfl
  | .bool _, _ => rfl
  | .null, h => Bool.noConfusion h
  | .undef, h => Bool.noConfusion h
  | .fn _, h => Bool.noConfusion h
theorem wf_keysOkElems : ∀ el, wfElems el = true → keysOkElems el = true
  | .nil, _ => rfl
  | .hole r, h => Bool.noConfusion h
  | .elem v r, h => by
      rw [wfElems, Bool.and_eq_true] at h
      rw [keysOkElems]
      simp only [Bool.and_eq_true]
      exact ⟨wf_keysOkElemVal v h.1, wf_keysOkElems r h.2⟩
theorem wf_keysOkElemVal : ∀ v, wfElemVal v = true → keysOkElemVal v = true
  | .obj f, h => by
      rw [wfElemVal, Bool.and_eq_true] at h
      rw [keysOkElemVal]
      exact wf_keysOkFields f h.2
  | .arr _ _, _ => rfl
  | .str _, _ => rfl
  | .num _, _ => rfl
  | .bool _, _ => rfl
  | .null, h => Bool.noConfusion h
  | .undef, h => Bool.noConfusion h
  | .fn _, h => Bool.noConfusion h
end

theorem mapSet_fresh : ∀ (out : List (String × JSValue)) (k : String) (v : JSValue),
    mapGet out k = none → mapSet out k v = out ++ [(k, v)]
  | [], _, _, _ => rfl
  | (k', v') :: r, k, v, h => by
      rw [mapGet] at h
      by_cases hk : k' = k
      · rw [if_pos hk] at h; exact Option.noConfusion h
      · rw [if_neg hk] at h
        rw [mapSet, if_neg hk, mapSet_fresh r k v h, List.cons_append]

theorem mapGet_append_left_none : ∀ (a b : List (String × JSValue)) (k : String),
    mapGet a k = none → mapGet (a ++ b) k = mapGet b k
  | [], _, _, _ => rfl
  | (k', v') :: r, b, k, h => by
      rw [mapGet] at h
      by_cases hk : k' = k
      · rw [if_pos hk] at h; exact Option.noConfusion h
      · rw [if_neg hk] at h
        rw [List.cons_append, mapGet, if_neg hk]
        exact mapGet_append_left_none r b k h

theorem foldSD_cons (ar : Bool) (p : List String) (v : JSValue)
    (l : List (List String × JSValue)) (root : JSValue) :
    foldSD ar ((p, v) :: l) root = foldSD ar l (setDeep root ar p (coalesce v)) := rfl

theorem foldSD_append (ar : Bool) (a b : List (List String × JSValue)) (root : JSValue) :
    foldSD ar (a ++ b) root = foldSD ar b (foldSD ar a root) := by
  rw [foldSD, foldSD, foldSD, List.foldl_append]

theorem joinKey_ne_empty_left : ∀ (pk : String) {k : String}, k ≠ "" → joinKey pk k ≠ "" := by
  intro pk k h
  rw [joinKey]
  split
  · exact h
  · exact append_dot_ne_empty pk k

theorem joinKey_of_ne {nk : String} (s : String) (h : nk ≠ "") :
    joinKey nk s = nk ++ "." ++ s := by
  rw [joinKey, if_neg h]

mutual
theorem pEfields_ne_nil : ∀ f : JFields, wfFields f = true → isNilF f = false →
    pEfields f ≠ []
  | .cons k v r, hw, _ => by
      rw [wfFields] at hw
      simp only [Bool.and_eq_true] at hw
      rw [pEfields]
      intro h
      exact blockF_ne_nil k v hw.1.2 (List.append_eq_nil.1 h).1
theorem pEelems_ne_nil : ∀ (el : JElems) (i : Nat), wfElems el = true → isNilE el = false →
    pEelems el i ≠ []
  | .hole r, _, hw, _ => Bool.noConfusion hw
  | .elem v r, i, hw, _ => by
      rw [wfElems, Bool.and_eq_true] at hw
      rw [pEelems]
      intro h
      exact blockE_ne_nil i v hw.1 (List.append_eq_nil.1 h).1
theorem blockF_ne_nil : ∀ (k : String) (v : JSValue), wfFieldVal v = true → blockF k v ≠ []
  | k, .obj f, hw => by
      rw [wfFieldVal] at hw
      simp only [Bool.and_eq_true, Bool.not_eq_true'] at hw
      rw [blockF]
      intro h
      exact pEfields_ne_nil f hw.2 hw.1 (List.map_eq_nil_iff.1 h)
  | k, .arr el pr, hw => by
      rw [wfFieldVal] at hw
      simp only [Bool.and_eq_true, Bool.not_eq_true'] at hw
      rw [blockF]
      intro h
      exact pEelems_ne_nil el 0 hw.2 hw.1.1 (List.map_eq_nil_iff.1 h)
  | k, .str s, _ => by simp [blockF]
  | k, .num n, _ => by simp [blockF]
  | k, .bool b, _ => by simp [blockF]
  | k, .null, hw => Bool.noConfusion hw
  | k, .undef, hw => Bool.noConfusion hw
  | k, .fn t, hw => Bool.noConfusion hw
theorem blockE_ne_nil : ∀ (i : Nat) (v : JSValue), wfElemVal v = true → blockE i v ≠ []
  | i, .obj f, hw => by
      rw [wfElemVal] at hw
      simp only [Bool.and_eq_true, Bool.not_eq_true'] at hw
      rw [blockE]
      intro h
      exact pEfields_ne_nil f hw.2 hw.1 (List.map_eq_nil_iff.1 h)
  | i, .arr el pr, _ => by simp [blockE]
  | i, .str s, _ => by simp [blockE]
  | i, .num n, _ => by simp [blockE]
  | i, .bool b, _ => by simp [blockE]
  | i, .null, hw => Bool.noConfusion hw
  | i, .undef, hw => Bool.noConfusion hw
  | i, .fn t, hw => Bool.noConfusion hw
end

mutual
theorem pEfields_segs : ∀ f : JFields, keysOkFields f = true →
    ∀ e ∈ pEfields f, ∀ s ∈ e.1, dotFree s = true
  | .cons k v r, hw, e, he, s, hs => by
      rw [keysOkFields] at hw
      simp only [Bool.and_eq_true] at hw
      rw [pEfields] at he
      rcases List.mem_append.1 he with hb | hr
      · exact blockF_segs k v hw.1.1.1 hw.1.2 e hb s hs
      · exact pEfields_segs r hw.2 e hr s hs
theorem pEelems_segs : ∀ (el : JElems) (i : Nat), keysOkElems el = true →
    ∀ e ∈ pEelems el i, ∀ s ∈ e.1, dotFree s = true
  | .hole r, i, hw, e, he, s, hs => by
      rw [keysOkElems] at hw
      rw [pEelems] at he
      exact pEelems_segs r (i + 1) hw e he s hs
  | .elem v r, i, hw, e, he, s, hs => by
      rw [keysOkElems, Bool.and_eq_true] at hw
      rw [pEelems] at he
      rcases List.mem_append.1 he with hb | hr
      · exact blockE_segs i v hw.1 e hb s hs
      · exact pEelems_segs r (i + 1) hw.2 e hr s hs
theorem blockF_segs : ∀ (k : String) (v : JSValue), wfName k = true → keysOkVal v = true →
    ∀ e ∈ blockF k v, ∀ s ∈ e.1, dotFree s = true
  | k, v, hk, hv, e, he, s, hs => by
      cases v
      case obj f =>
        rw [keysOkVal] at hv
        rw [blockF] at he
        rcases List.mem_map.1 he with ⟨e', he', rfl⟩
        rcases List.mem_cons.1 hs with rfl | hs'
        · exact wfName_dotFree hk
        · exact pEfields_segs f hv e' he' s hs'
      case arr el pr =>
        rw [keysOkVal] at hv
        rw [blockF] at he
        rcases List.mem_map.1 he with ⟨e', he', rfl⟩
        rcases List.mem_cons.1 hs with rfl | hs'
        · exact wfName_dotFree hk
        · exact pEelems_segs el 0 hv e' he' s hs'
      all_goals {
        rw [List.mem_singleton.1 he] at hs
        rcases List.mem_cons.1 hs with rfl | hs'
        · exact wfName_dotFree hk
        · exact absurd hs' (List.not_mem_nil s) }
theorem blockE_segs : ∀ (i : Nat) (v : JSValue), keysOkElemVal v = true →
    ∀ e ∈ blockE i v, ∀ s ∈ e.1, dotFree s = true
  | i, v, hv, e, he, s, hs => by
      cases v
      case obj f =>
        rw [keysOkElemVal] at hv
        rw [blockE] at he
        rcases List.mem_map.1 he with ⟨e', he', rfl⟩
        rcases List.mem_cons.1 hs with rfl | hs'
        · exact dotFree_natToStr i
        · exact pEfields_segs f hv e' he' s hs'
      all_goals {
        rw [List.mem_singleton.1 he] at hs
        rcases List.mem_cons.1 hs with rfl | hs'
        · exact dotFree_natToStr i
        · exact absurd hs' (List.not_mem_nil s) }
end

theorem nodup_map_consE (k : String) (l : List (List String × JSValue))
    (h : (l.map Prod.fst).Nodup) : (l.map (fun e => k :: e.1)).Nodup := by
  rw [show (fun e : List String × JSValue => k :: e.1)
      = (fun p => k :: p) ∘ Prod.fst from rfl, ← List.map_map]
  exact h.map (fun x y hxy => by simpa using hxy)

mutual
theorem pEfields_paths_nodup : ∀ f : JFields, keysOkFields f = true →
    ((pEfields f).map Prod.fst).Nodup
  | .nil, _ => List.nodup_nil
  | .cons k v r, hw => by
      rw [keysOkFields] at hw
      simp only [Bool.and_eq_true, Bool.not_eq_true'] at hw
      rw [pEfields, List.map_append, List.nodup_append]
      refine ⟨blockF_paths_nodup k v hw.1.2, pEfields_paths_nodup r hw.2, ?_⟩
      intro p hp hp'
      rcases List.mem_map.1 hp with ⟨e, he, rfl⟩
      rcases List.mem_map.1 hp' with ⟨e', he', hee⟩
      obtain ⟨p1, h1⟩ := blockF_mem he
      obtain ⟨k2, p2, h2, hk2⟩ := pEfields_head r e' he'
      rw [h1, h2] at hee
      have hkk : k2 = k := by injection hee
      rw [hkk, hw.1.1.2] at hk2
      exact Bool.noConfusion hk2
theorem pEelems_paths_nodup : ∀ (el : JElems) (i : Nat), keysOkElems el = true →
    ((pEelems el i).map Prod.fst).Nodup
  | .nil, _, _ => List.nodup_nil
  | .hole r, i, hw => pEelems_paths_nodup r (i + 1) hw
  | .elem v r, i, hw => by
      rw [keysOkElems, Bool.and_eq_true] at hw
      rw [pEelems, List.map_append, List.nodup_append]
      refine ⟨blockE_paths_nodup i v hw.1, pEelems_paths_nodup r (i + 1) hw.2, ?_⟩
      intro p hp hp'
      rcases List.mem_map.1 hp with ⟨e, he, rfl⟩
      rcases List.mem_map.1 hp' with ⟨e', he', hee⟩
      obtain ⟨p1, h1⟩ := blockE_mem he
      obtain ⟨j, p2, h2, hj⟩ := pEelems_head r (i + 1) e' he'
      rw [h1, h2] at hee
      have hji : natToStr j = natToStr i := by injection hee
      have := natToStr_inj hji
      omega
theorem blockF_paths_nodup : ∀ (k : String) (v : JSValue), keysOkVal v = true →
    ((blockF k v).map Prod.fst).Nodup
  | k, v, hv => by
      cases v
      case obj f =>
        rw [keysOkVal] at hv
        rw [blockF, List.map_map]
        exact nodup_map_consE k _ (pEfields_paths_nodup f hv)
      case arr el pr =>
        rw [keysOkVal] at hv
        rw [blockF, List.map_map]
        exact nodup_map_consE k _ (pEelems_paths_nodup el 0 hv)
      all_goals simp [blockF]
theorem blockE_paths_nodup : ∀ (i : Nat) (v : JSValue), keysOkElemVal v = true →
    ((blockE i v).map Prod.fst).Nodup
  | i, v, hv => by
      cases v
      case obj f =>
        rw [keysOkElemVal] at hv
        rw [blockE, List.map_map]
        exact nodup_map_consE (natToStr i) _ (pEfields_paths_nodup f hv)
      all_goals simp [blockE]
end

theorem pEfields_entry_good (f : JFields) (hw : keysOkFields f = true) :
    ∀ e ∈ pEfields f, ∃ k p', e.1 = k :: p' ∧ k ≠ "" ∧ dotFree k = true ∧
      ∀ s ∈ p', dotFree s = true := by
  intro e he
  obtain ⟨k, p', h1, hk⟩ := pEfields_head f e he
  have hwk := wfName_of_fHasKey f k hw hk
  refine ⟨k, p', h1, wfName_ne_empty hwk, wfName_dotFree hwk, ?_⟩
  intro s hs
  exact pEfields_segs f hw e he s (by rw [h1]; exact List.mem_cons_of_mem _ hs)

theorem pathKey_root_inj {p q : List String}
    (hp : ∃ k p', p = k :: p' ∧ k ≠ "" ∧ dotFree k = true ∧ ∀ s ∈ p', dotFree s = true)
    (hq : ∃ k q', q = k :: q' ∧ k ≠ "" ∧ dotFree k = true ∧ ∀ s ∈ q', dotFree s = true)
    (h : pathKey "" p = pathKey "" q) : p = q := by
  obtain ⟨k, p', rfl, hk, hkd, hpd⟩ := hp
  obtain ⟨k2, q', rfl, hk2, hk2d, hqd⟩ := hq
  have h2 := congrArg splitDot h
  rw [splitDot_pathKey_root p' k hk hkd hpd, splitDot_pathKey_root q' k2 hk2 hk2d hqd] at h2
  exact h2

theorem pE_keys_nodup_root (f : JFields) (hw : keysOkFields f = true) :
    ((pEfields f).map (fun e => pathKey "" e.1)).Nodup := by
  have h1 : ((pEfields f).map Prod.fst).Nodup := pEfields_paths_nodup f hw
  have h2 : (((pEfields f).map Prod.fst).map (pathKey "")).Nodup := by
    refine List.Nodup.map_on ?_ h1
    intro x hx y hy hxy
    rcases List.mem_map.1 hx with ⟨e, he, rfl⟩
    rcases List.mem_map.1 hy with ⟨e', he', rfl⟩
    exact pathKey_root_inj (pEfields_entry_good f hw e he) (pEfields_entry_good f hw e' he') hxy
  rw [List.map_map] at h2
  exact h2

theorem canonSeg_of_name {k : String} (h : isIndex k = false) : canonSeg k = k := by
  rw [canonSeg, h]
  simp

theorem childSet_obj_name {k : String} (h : isIndex k = false) (g : JFields) (v : JSValue) :
    childSet (.obj g) k v = .obj (objSet g k v) := by
  rw [childSet, canonSeg_of_name h]

theorem childGet_obj_name {k : String} (h : isIndex k = false) (g : JFields) :
    childGet (.obj g) k = objGet g k := by
  rw [childGet, canonSeg_of_name h]

theorem childSet_arr_index {s : String} (h : isIndex s = true) (el : JElems) (pr : JFields)
    (v : JSValue) : childSet (.arr el pr) s v = .arr (arrSet el (digitsToNat s) v) pr := by
  rw [childSet, if_pos h]

theorem childGet_arr_index {s : String} (h : isIndex s = true) (el : JElems) (pr : JFields) :
    childGet (.arr el pr) s = arrGet el (digitsToNat s) := by
  rw [childGet, if_pos h]

theorem foldSD_factor : ∀ (l : List (List String × JSValue)) (C c : JSValue) (s : String)
    (ar : Bool), isContainer C = true → isContainer c = true →
    (∀ e ∈ l, e.1 ≠ []) → (isIndex s = true → C.isArr = true) →
    foldSD ar (l.map (fun e => (s :: e.1, e.2))) (childSet C s c)
      = childSet C s (foldSD false l c)
  | [], _, _, _, _, _, _, _, _ => rfl
  | (p, v) :: rest, C, c, s, ar, hC, hc, hne, hs => by
      have hp : p ≠ [] := hne (p, v) (List.mem_cons_self _ _)
      cases p with
      | nil => exact absurd rfl hp
      | cons p0 p' =>
        simp only [List.map_cons]
        rw [foldSD_cons, foldSD_cons]
        rw [setDeep, conv_cond_false (fun _ hi => by rw [childSet_isArr]; exact hs hi)]
        simp only [Bool.false_eq_true, if_false]
        rw [ensureChild_of_some p0 (childGet_childSet_self hC s c), if_pos hc,
          childSet_childSet]
        exact foldSD_factor rest C (setDeep c false (p0 :: p') (coalesce v)) s ar hC
          (setDeep_isContainer (p0 :: p') c false (coalesce v) hc (List.cons_ne_nil _ _))
          (fun e he => hne e (List.mem_cons_of_mem _ he)) hs

mutual

theorem foldBlockF : ∀ (k : String) (v : JSValue) (g : JFields) (ar : Bool),
    wfName k = true → wfFieldVal v = true → fHasKey g k = false →
    foldSD ar (blockF k v) (.obj g) = .obj (objSet g k v)
  | k, .obj f', g, ar, hk, hv, hg => by
      rw [wfFieldVal] at hv
      simp only [Bool.and_eq_true, Bool.not_eq_true'] at hv
      rw [blockF]
      cases hpe : pEfields f' with
      | nil => exact absurd hpe (pEfields_ne_nil f' hv.2 hv.1)
      | cons e0 l' =>
        obtain ⟨pp, w⟩ := e0
        obtain ⟨k0, p0, he0, hk0⟩ := pEfields_head f' (pp, w)
          (by rw [hpe]; exact List.mem_cons_self _ _)
        have he0' : pp = k0 :: p0 := he0
        subst he0'
        have hwk0 : wfName k0 = true :=
          wfName_of_fHasKey f' k0 (wf_keysOkFields f' hv.2) hk0
        simp only [List.map_cons]
        rw [foldSD_cons]
        rw [setDeep, conv_cond_false
          (fun _ hi => absurd hi (by rw [wfName_not_index hk]; exact Bool.false_ne_true))]
        simp only [Bool.false_eq_true, if_false]
        have hget : childGet (.obj g) k = none := by
          rw [childGet_obj_name (wfName_not_index hk)]
          exact objGet_none_of_fHasKey_false g k hg
        rw [ensureChild_of_none k0 hget]
        have hfr : freshFor k0 = .obj .nil := by simp [freshFor, wfName_not_index hwk0]
        rw [hfr]
        have hne : ∀ e' ∈ l', e'.1 ≠ [] := by
          intro e' he'
          obtain ⟨k1, p1, h1, _⟩ := pEfields_head f' e'
            (by rw [hpe]; exact List.mem_cons_of_mem _ he')
          rw [h1]
          exact List.cons_ne_nil _ _
        rw [foldSD_factor l' (.obj g) _ k ar rfl
          (setDeep_isContainer (k0 :: p0) (.obj .nil) false (coalesce w) rfl
            (List.cons_ne_nil _ _))
          hne (fun hi => absurd hi (by rw [wfName_not_index hk]; exact Bool.false_ne_true))]
        have h5 := foldFields f' JFields.nil false hv.2 (fun k1 _ => rfl)
        rw [hpe, foldSD_cons] at h5
        rw [h5]
        rw [childSet_obj_name (wfName_not_index hk)]
        rfl
  | k, .arr el pr, g, ar, hk, hv, hg => by
      rw [wfFieldVal] at hv
      simp only [Bool.and_eq_true, Bool.not_eq_true'] at hv
      have hpr : pr = .nil := by
        cases pr with
        | nil => rfl
        | cons a b c => exact Bool.noConfusion hv.1.2
      subst hpr
      rw [blockF]
      cases hpe : pEelems el 0 with
      | nil => exact absurd hpe (pEelems_ne_nil el 0 hv.2 hv.1.1)
      | cons e0 l' =>
        obtain ⟨pp, w⟩ := e0
        obtain ⟨j0, p0, he0, _⟩ := pEelems_head el 0 (pp, w)
          (by rw [hpe]; exact List.mem_cons_self _ _)
        have he0' : pp = natToStr j0 :: p0 := he0
        subst he0'
        simp only [List.map_cons]
        rw [foldSD_cons]
        rw [setDeep, conv_cond_false
          (fun _ hi => absurd hi (by rw [wfName_not_index hk]; exact Bool.false_ne_true))]
        simp only [Bool.false_eq_true, if_false]
        have hget : childGet (.obj g) k = none := by
          rw [childGet_obj_name (wfName_not_index hk)]
          exact objGet_none_of_fHasKey_false g k hg
        rw [ensureChild_of_none (natToStr j0) hget]
        have hfr : freshFor (natToStr j0) = .arr .nil .nil := by
          simp [freshFor, isIndex_natToStr]
        rw [hfr]
        have hne : ∀ e' ∈ l', e'.1 ≠ [] := by
          intro e' he'
          obtain ⟨j1, p1, h1, _⟩ := pEelems_head el 0 e'
            (by rw [hpe]; exact List.mem_cons_of_mem _ he')
          rw [h1]
          exact List.cons_ne_nil _ _
        rw [foldSD_factor l' (.obj g) _ k ar rfl
          (setDeep_isContainer (natToStr j0 :: p0) (.arr .nil .nil) false (coalesce w) rfl
            (List.cons_ne_nil _ _))
          hne (fun hi => absurd hi (by rw [wfName_not_index hk]; exact Bool.false_ne_true))]
        have h5 := foldElems el JElems.nil 0 hv.2 rfl
        rw [hpe, foldSD_cons] at h5
        rw [h5]
        rw [childSet_obj_name (wfName_not_index hk)]
        rfl
  | k, .str s, g, ar, hk, _, _ => by
      simp only [blockF]
      rw [foldSD_cons]
      rw [setDeep, conv_cond_false
        (fun _ hi => absurd hi (by rw [wfName_not_index hk]; exact Bool.false_ne_true))]
      simp only [Bool.false_eq_true, if_false]
      rw [childSet_obj_name (wfName_not_index hk)]
      rfl
  | k, .num n, g, ar, hk, _, _ => by
      simp only [blockF]
      rw [foldSD_cons]
      rw [setDeep, conv_cond_false
        (fun _ hi => absurd hi (by rw [wfName_not_index hk]; exact Bool.false_ne_true))]
      simp only [Bool.false_eq_true, if_false]
      rw [childSet_obj_name (wfName_not_index hk)]
      rfl
  | k, .bool b, g, ar, hk, _, _ => by
      simp only [blockF]
      rw [foldSD_cons]
      rw [setDeep, conv_cond_false
        (fun _ hi => absurd hi (by rw [wfName_not_index hk]; exact Bool.false_ne_true))]
      simp only [Bool.false_eq_true, if_false]
      rw [childSet_obj_name (wfName_not_index hk)]
      rfl
  | _, .null, _, _, _, hv, _ => Bool.noConfusion hv
  | _, .undef, _, _, _, hv, _ => Bool.noConfusion hv
  | _, .fn _, _, _, _, hv, _ => Bool.noConfusion hv

theorem foldBlockE : ∀ (i : Nat) (v : JSValue) (e : JElems), wfElemVal v = true → lenE e = i →
    foldSD false (blockE i v) (.arr e .nil) = .arr (appendE e (.elem v .nil)) .nil
  | i, .obj f, e, hv, hl => by
      rw [wfElemVal] at hv
      simp only [Bool.and_eq_true, Bool.not_eq_true'] at hv
      rw [blockE]
      cases hpe : pEfields f with
      | nil => exact absurd hpe (pEfields_ne_nil f hv.2 hv.1)
      | cons e0 l' =>
        obtain ⟨pp, w⟩ := e0
        obtain ⟨k0, p0, he0, hk0⟩ := pEfields_head f (pp, w)
          (by rw [hpe]; exact List.mem_cons_self _ _)
        have he0' : pp = k0 :: p0 := he0
        subst he0'
        have hwk0 : wfName k0 = true :=
          wfName_of_fHasKey f k0 (wf_keysOkFields f hv.2) hk0
        simp only [List.map_cons]
        rw [foldSD_cons]
        rw [setDeep, @conv_cond_false (.arr e .nil) false (natToStr i) (fun _ _ => rfl)]
        simp only [Bool.false_eq_true, if_false]
        have hget : childGet (.arr e .nil) (natToStr i) = none := by
          rw [childGet_arr_index (isIndex_natToStr i), digitsToNat_natToStr, ← hl, arrGet_lenE]
        rw [ensureChild_of_none k0 hget]
        have hfr : freshFor k0 = .obj .nil := by simp [freshFor, wfName_not_index hwk0]
        rw [hfr]
        have hne : ∀ e' ∈ l', e'.1 ≠ [] := by
          intro e' he'
          obtain ⟨k1, p1, h1, _⟩ := pEfields_head f e'
            (by rw [hpe]; exact List.mem_cons_of_mem _ he')
          rw [h1]
          exact List.cons_ne_nil _ _
        rw [foldSD_factor l' (.arr e .nil) _ (natToStr i) false rfl
          (setDeep_isContainer (k0 :: p0) (.obj .nil) false (coalesce w) rfl
            (List.cons_ne_nil _ _))
          hne (fun _ => rfl)]
        have h5 := foldFields f JFields.nil false hv.2 (fun k1 _ => rfl)
        rw [hpe, foldSD_cons] at h5
        rw [h5]
        rw [childSet_arr_index (isIndex_natToStr i), digitsToNat_natToStr, ← hl, arrSet_lenE]
        rfl
  | i, .arr el' pr', e, _, hl => by
      simp only [blockE]
      rw [foldSD_cons]
      rw [setDeep, @conv_cond_false (.arr e .nil) false (natToStr i) (fun _ _ => rfl)]
      simp only [Bool.false_eq_true, if_false]
      rw [childSet_arr_index (isIndex_natToStr i), digitsToNat_natToStr, ← hl, arrSet_lenE]
      rfl
  | i, .str s, e, _, hl => by
      simp only [blockE]
      rw [foldSD_cons]
      rw [setDeep, @conv_cond_false (.arr e .nil) false (natToStr i) (fun _ _ => rfl)]
      simp only [Bool.false_eq_true, if_false]
      rw [childSet_arr_index (isIndex_natToStr i), digitsToNat_natToStr, ← hl, arrSet_lenE]
      rfl
  | i, .num n, e, _, hl => by
      simp only [blockE]
      rw [foldSD_cons]
      rw [setDeep, @conv_cond_false (.arr e .nil) false (natToStr i) (fun _ _ => rfl)]
      simp only [Bool.false_eq_true, if_false]
      rw [childSet_arr_index (isIndex_natToStr i), digitsToNat_natToStr, ← hl, arrSet_lenE]
      rfl
  | i, .bool b, e, _, hl => by
      simp only [blockE]
      rw [foldSD_cons]
      rw [setDeep, @conv_cond_false (.arr e .nil) false (natToStr i) (fun _ _ => rfl)]
      simp only [Bool.false_eq_true, if_false]
      rw [childSet_arr_index (isIndex_natToStr i), digitsToNat_natToStr, ← hl, arrSet_lenE]
      rfl
  | _, .null, _, hv, _ => Bool.noConfusion hv
  | _, .undef, _, hv, _ => Bool.noConfusion hv
  | _, .fn _, _, hv, _ => Bool.noConfusion hv

theorem foldFields : ∀ (f g : JFields) (ar : Bool), wfFields f = true →
    (∀ k, fHasKey f k = true → fHasKey g k = false) →
    foldSD ar (pEfields f) (.obj g) = .obj (appendF g f)
  | .nil, g, ar, _, _ => by rw [pEfields, appendF_nil]; rfl
  | .cons k v r, g, ar, hw, hg => by
      rw [wfFields] at hw
      simp only [Bool.and_eq_true, Bool.not_eq_true'] at hw
      rw [pEfields, foldSD_append]
      have hgk : fHasKey g k = false := hg k (by rw [fHasKey]; simp)
      rw [foldBlockF k v g ar hw.1.1.1 hw.1.2 hgk]
      have hfr : ∀ k', fHasKey r k' = true →
          fHasKey (appendF g (.cons k v .nil)) k' = false := by
        intro k' hk'
        rw [fHasKey_appendF, Bool.or_eq_false_iff]
        refine ⟨hg k' (by rw [fHasKey, hk', Bool.or_true]), ?_⟩
        rw [fHasKey, fHasKey, Bool.or_false]
        have hne : k ≠ k' := fun hh => by
          have h2 := hw.1.1.2
          rw [hh, hk'] at h2
          exact Bool.noConfusion h2
        simpa using hne
      rw [objSet_fresh g v hgk]
      rw [foldFields r (appendF g (.cons k v .nil)) ar hw.2 hfr]
      rw [appendF_assoc]
      rfl

theorem foldElems : ∀ (el e : JElems) (i : Nat), wfElems el = true → lenE e = i →
    foldSD false (pEelems el i) (.arr e .nil) = .arr (appendE e el) .nil
  | .nil, e, i, _, _ => by rw [pEelems, appendE_nil]; rfl
  | .hole r, _, _, hw, _ => Bool.noConfusion hw
  | .elem v r, e, i, hw, hl => by
      rw [wfElems, Bool.and_eq_true] at hw
      rw [pEelems, foldSD_append]
      rw [foldBlockE i v e hw.1 hl]
      rw [foldElems r (appendE e (.elem v .nil)) (i + 1) hw.2 (by rw [lenE_snoc, hl])]
      rw [appendE_assoc]
      rfl

end

theorem map_ent_cons (pk k : String) (l : List (List String × JSValue)) :
    (l.map (fun e => (k :: e.1, e.2))).map (fun e => (pathKey pk e.1, coalesce e.2))
      = l.map (fun e => (pathKey (joinKey pk k) e.1, coalesce e.2)) := by
  rw [List.map_map]
  rfl

theorem map_key_cons (pk k : String) (l : List (List String × JSValue)) :
    (l.map (fun e => (k :: e.1, e.2))).map (fun e => pathKey pk e.1)
      = l.map (fun e => pathKey (joinKey pk k) e.1) := by
  rw [List.map_map]
  rfl

theorem mapGet_ent_none (pk : String) : ∀ (l : List (List String × JSValue)) (key : String),
    (∀ e ∈ l, pathKey pk e.1 ≠ key) →
    mapGet (l.map (fun e => (pathKey pk e.1, coalesce e.2))) key = none
  | [], _, _ => rfl
  | e :: r, key, h => by
      simp only [List.map_cons]
      rw [mapGet, if_neg (h e (List.mem_cons_self _ _))]
      exact mapGet_ent_none pk r key (fun e' he' => h e' (List.mem_cons_of_mem _ he'))

theorem mapGet_single_none {k key : String} (v : JSValue) (h : k ≠ key) :
    mapGet [(k, v)] key = none := by
  rw [mapGet, if_neg h]
  rfl

theorem bridge_scalar_step (k : String) (v : JSValue) (r : JFields) (pk : String)
    (out : List (String × JSValue))
    (hbv : blockF k v = [([k], v)])
    (hrec : ∀ out', (∀ e ∈ pEfields r, mapGet out' (pathKey pk e.1) = none) →
      ((pEfields r).map (fun e => pathKey pk e.1)).Nodup →
      flattenFields r pk out'
        = out' ++ (pEfields r).map (fun e => (pathKey pk e.1, coalesce e.2)))
    (hstep : flattenFields (JFields.cons k v r) pk out
      = flattenFields r pk (mapSet out (joinKey pk k) (coalesce v)))
    (hfresh : ∀ e ∈ blockF k v ++ pEfields r, mapGet out (pathKey pk e.1) = none)
    (hnd : ((blockF k v ++ pEfields r).map (fun e => pathKey pk e.1)).Nodup) :
    flattenFields (JFields.cons k v r) pk out
      = out ++ (blockF k v ++ pEfields r).map
          (fun e => (pathKey pk e.1, coalesce e.2)) := by
  rw [hbv] at hfresh hnd ⊢
  rw [List.map_append, List.nodup_append] at hnd
  rw [hstep]
  have h0 : mapGet out (joinKey pk k) = none :=
    hfresh ([k], v) (List.mem_append_left _ (List.mem_singleton.2 rfl))
  rw [mapSet_fresh out (joinKey pk k) (coalesce v) h0]
  have hfreshR : ∀ e ∈ pEfields r,
      mapGet (out ++ [(joinKey pk k, coalesce v)]) (pathKey pk e.1) = none := by
    intro e he
    rw [mapGet_append_left_none _ _ _ (hfresh e (List.mem_append_right _ he))]
    refine mapGet_single_none (coalesce v) ?_
    intro heq
    exact hnd.2.2 (List.mem_map.2 ⟨([k], v), List.mem_singleton.2 rfl, heq⟩)
      (List.mem_map.2 ⟨e, he, rfl⟩)
  rw [hrec _ hfreshR hnd.2.1]
  rw [List.map_append, ← List.append_assoc]
  rfl

theorem bridge_scalarE_step (i : Nat) (v : JSValue) (r : JElems) (nk : String)
    (out : List (String × JSValue)) (hnk : nk ≠ "")
    (hbv : blockE i v = [([natToStr i], v)])
    (hrec : ∀ out', (∀ e ∈ pEelems r (i + 1), mapGet out' (pathKey nk e.1) = none) →
      ((pEelems r (i + 1)).map (fun e => pathKey nk e.1)).Nodup →
      flattenArrElems r (i + 1) nk out'
        = out' ++ (pEelems r (i + 1)).map (fun e => (pathKey nk e.1, coalesce e.2)))
    (hstep : flattenArrElems (JElems.elem v r) i nk out
      = flattenArrElems r (i + 1) nk (mapSet out (nk ++ "." ++ natToStr i) (coalesce v)))
    (hfresh : ∀ e ∈ blockE i v ++ pEelems r (i + 1), mapGet out (pathKey nk e.1) = none)
    (hnd : ((blockE i v ++ pEelems r (i + 1)).map (fun e => pathKey nk e.1)).Nodup) :
    flattenArrElems (JElems.elem v r) i nk out
      = out ++ (blockE i v ++ pEelems r (i + 1)).map
          (fun e => (pathKey nk e.1, coalesce e.2)) := by
  rw [hbv] at hfresh hnd ⊢
  rw [List.map_append, List.nodup_append] at hnd
  rw [hstep]
  rw [← joinKey_of_ne (natToStr i) hnk]
  have h0 : mapGet out (joinKey nk (natToStr i)) = none :=
    hfresh ([natToStr i], v) (List.mem_append_left _ (List.mem_singleton.2 rfl))
  rw [mapSet_fresh out (joinKey nk (natToStr i)) (coalesce v) h0]
  have hfreshR : ∀ e ∈ pEelems r (i + 1),
      mapGet (out ++ [(joinKey nk (natToStr i), coalesce v)]) (pathKey nk e.1) = none := by
    intro e he
    rw [mapGet_append_left_none _ _ _ (hfresh e (List.mem_append_right _ he))]
    refine mapGet_single_none (coalesce v) ?_
    intro heq
    exact hnd.2.2 (List.mem_map.2 ⟨([natToStr i], v), List.mem_singleton.2 rfl, heq⟩)
      (List.mem_map.2 ⟨e, he, rfl⟩)
  rw [hrec _ hfreshR hnd.2.1]
  rw [List.map_append, ← List.append_assoc]
  rfl

mutual

theorem flattenFields_pE : ∀ (f : JFields) (pk : String) (out : List (String × JSValue)),
    keysOkFields f = true →
    (∀ e ∈ pEfields f, mapGet out (pathKey pk e.1) = none) →
    ((pEfields f).map (fun e => pathKey pk e.1)).Nodup →
    flattenFields f pk out
      = out ++ (pEfields f).map (fun e => (pathKey pk e.1, coalesce e.2))
  | .nil, pk, out, _, _, _ => by
      rw [pEfields, flattenFields, List.map_nil, List.append_nil]
  | .cons k v r, pk, out, hw, hfresh, hnd => by
      rw [keysOkFields] at hw
      simp only [Bool.and_eq_true, Bool.not_eq_true'] at hw
      rw [pEfields] at hfresh hnd ⊢
      cases v with
      | obj f' =>
        rw [blockF] at hfresh hnd ⊢
        rw [List.map_append, List.nodup_append] at hnd
        have hstep : flattenFields (JFields.cons k (JSValue.obj f') r) pk out
            = flattenFields r pk (flattenFields f' (joinKey pk k) out) := rfl
        rw [hstep]
        have hfreshB : ∀ e ∈ pEfields f',
            mapGet out (pathKey (joinKey pk k) e.1) = none := by
          intro e he
          exact hfresh (k :: e.1, e.2)
            (List.mem_append_left _ (List.mem_map.2 ⟨e, he, rfl⟩))
        have hndB : ((pEfields f').map (fun e => pathKey (joinKey pk k) e.1)).Nodup := by
          have h1 := hnd.1
          rw [map_key_cons] at h1
          exact h1
        rw [flattenFields_pE f' (joinKey pk k) out hw.1.2 hfreshB hndB]
        have hfreshR : ∀ e ∈ pEfields r,
            mapGet (out ++ (pEfields f').map
              (fun e => (pathKey (joinKey pk k) e.1, coalesce e.2)))
              (pathKey pk e.1) = none := by
          intro e he
          rw [mapGet_append_left_none _ _ _ (hfresh e (List.mem_append_right _ he))]
          refine mapGet_ent_none (joinKey pk k) (pEfields f') (pathKey pk e.1) ?_
          intro e' he' heq
          exact hnd.2.2
            (List.mem_map.2 ⟨(k :: e'.1, e'.2), List.mem_map.2 ⟨e', he', rfl⟩, heq⟩)
            (List.mem_map.2 ⟨e, he, rfl⟩)
        rw [flattenFields_pE r pk _ hw.2 hfreshR hnd.2.1]
        rw [List.map_append, map_ent_cons, ← List.append_assoc]
      | arr el pr =>
        rw [blockF] at hfresh hnd ⊢
        rw [List.map_append, List.nodup_append] at hnd
        have hstep : flattenFields (JFields.cons k (JSValue.arr el pr) r) pk out
            = flattenFields r pk (flattenArrElems el 0 (joinKey pk k) out) := rfl
        rw [hstep]
        have hnk : joinKey pk k ≠ "" := joinKey_ne_empty_left pk (wfName_ne_empty hw.1.1.1)
        have hfreshB : ∀ e ∈ pEelems el 0,
            mapGet out (pathKey (joinKey pk k) e.1) = none := by
          intro e he
          exact hfresh (k :: e.1, e.2)
            (List.mem_append_left _ (List.mem_map.2 ⟨e, he, rfl⟩))
        have hndB : ((pEelems el 0).map (fun e => pathKey (joinKey pk k) e.1)).Nodup := by
          have h1 := hnd.1
          rw [map_key_cons] at h1
          exact h1
        rw [flattenArrElems_pE el 0 (joinKey pk k) out hw.1.2 hnk hfreshB hndB]
        have hfreshR : ∀ e ∈ pEfields r,
            mapGet (out ++ (pEelems el 0).map
              (fun e => (pathKey (joinKey pk k) e.1, coalesce e.2)))
              (pathKey pk e.1) = none := by
          intro e he
          rw [mapGet_append_left_none _ _ _ (hfresh e (List.mem_append_right _ he))]
          refine mapGet_ent_none (joinKey pk k) (pEelems el 0) (pathKey pk e.1) ?_
          intro e' he' heq
          exact hnd.2.2
            (List.mem_map.2 ⟨(k :: e'.1, e'.2), List.mem_map.2 ⟨e', he', rfl⟩, heq⟩)
            (List.mem_map.2 ⟨e, he, rfl⟩)
        rw [flattenFields_pE r pk _ hw.2 hfreshR hnd.2.1]
        rw [List.map_append, map_ent_cons, ← List.append_assoc]
      | str sv =>
        exact bridge_scalar_step k (.str sv) r pk out rfl
          (fun out' hf hn => flattenFields_pE r pk out' hw.2 hf hn) rfl hfresh hnd
      | num nv =>
        exact bridge_scalar_step k (.num nv) r pk out rfl
          (fun out' hf hn => flattenFields_pE r pk out' hw.2 hf hn) rfl hfresh hnd
      | bool bv =>
        exact bridge_scalar_step k (.bool bv) r pk out rfl
          (fun out' hf hn => flattenFields_pE r pk out' hw.2 hf hn) rfl hfresh hnd
      | null =>
        exact bridge_scalar_step k .null r pk out rfl
          (fun out' hf hn => flattenFields_pE r pk out' hw.2 hf hn) rfl hfresh hnd
      | undef =>
        exact bridge_scalar_step k .undef r pk out rfl
          (fun out' hf hn => flattenFields_pE r pk out' hw.2 hf hn) rfl hfresh hnd
      | fn t =>
        exact bridge_scalar_step k (.fn t) r pk out rfl
          (fun out' hf hn => flattenFields_pE r pk out' hw.2 hf hn) rfl hfresh hnd

theorem flattenArrElems_pE : ∀ (el : JElems) (i : Nat) (nk : String)
    (out : List (String × JSValue)), keysOkElems el = true → nk ≠ "" →
    (∀ e ∈ pEelems el i, mapGet out (pathKey nk e.1) = none) →
    ((pEelems el i).map (fun e => pathKey nk e.1)).Nodup →
    flattenArrElems el i nk out
      = out ++ (pEelems el i).map (fun e => (pathKey nk e.1, coalesce e.2))
  | .nil, i, nk, out, _, _, _, _ => by
      rw [pEelems, flattenArrElems, List.map_nil, List.append_nil]
  | .hole r, i, nk, out, hw, hnk, hfresh, hnd => by
      rw [pEelems] at hfresh hnd ⊢
      rw [flattenArrElems]
      exact flattenArrElems_pE r (i + 1) nk out hw hnk hfresh hnd
  | .elem v r, i, nk, out, hw, hnk, hfresh, hnd => by
      rw [keysOkElems] at hw
      simp only [Bool.and_eq_true] at hw
      rw [pEelems] at hfresh hnd ⊢
      cases v with
      | obj f'' =>
        rw [blockE] at hfresh hnd ⊢
        rw [List.map_append, List.nodup_append] at hnd
        have hstep : flattenArrElems (JElems.elem (JSValue.obj f'') r) i nk out
            = flattenArrElems r (i + 1) nk
                (flattenFields f'' (nk ++ "." ++ natToStr i) out) := rfl
        rw [hstep]
        rw [← joinKey_of_ne (natToStr i) hnk]
        have hfreshB : ∀ e ∈ pEfields f'',
            mapGet out (pathKey (joinKey nk (natToStr i)) e.1) = none := by
          intro e he
          exact hfresh (natToStr i :: e.1, e.2)
            (List.mem_append_left _ (List.mem_map.2 ⟨e, he, rfl⟩))
        have hndB : ((pEfields f'').map
            (fun e => pathKey (joinKey nk (natToStr i)) e.1)).Nodup := by
          have h1 := hnd.1
          rw [map_key_cons] at h1
          exact h1
        rw [flattenFields_pE f'' (joinKey nk (natToStr i)) out hw.1 hfreshB hndB]
        have hfreshR : ∀ e ∈ pEelems r (i + 1),
            mapGet (out ++ (pEfields f'').map
              (fun e => (pathKey (joinKey nk (natToStr i)) e.1, coalesce e.2)))
              (pathKey nk e.1) = none := by
          intro e he
          rw [mapGet_append_left_none _ _ _ (hfresh e (List.mem_append_right _ he))]
          refine mapGet_ent_none (joinKey nk (natToStr i)) (pEfields f'') (pathKey nk e.1) ?_
          intro e' he' heq
          exact hnd.2.2
            (List.mem_map.2 ⟨(natToStr i :: e'.1, e'.2), List.mem_map.2 ⟨e', he', rfl⟩, heq⟩)
            (List.mem_map.2 ⟨e, he, rfl⟩)
        rw [flattenArrElems_pE r (i + 1) nk _ hw.2 hnk hfreshR hnd.2.1]
        rw [List.map_append, map_ent_cons, ← List.append_assoc]
      | arr el'' pr'' =>
        exact bridge_scalarE_step i (.arr el'' pr'') r nk out hnk rfl
          (fun out' hf hn => flattenArrElems_pE r (i + 1) nk out' hw.2 hnk hf hn)
          rfl hfresh hnd
      | str sv =>
        exact bridge_scalarE_step i (.str sv) r nk out hnk rfl
          (fun out' hf hn => flattenArrElems_pE r (i + 1) nk out' hw.2 hnk hf hn)
          rfl hfresh hnd
      | num nv =>
        exact bridge_scalarE_step i (.num nv) r nk out hnk rfl
          (fun out' hf hn => flattenArrElems_pE r (i + 1) nk out' hw.2 hnk hf hn)
          rfl hfresh hnd
      | bool bv =>
        exact bridge_scalarE_step i (.bool bv) r nk out hnk rfl
          (fun out' hf hn => flattenArrElems_pE r (i + 1) nk out' hw.2 hnk hf hn)
          rfl hfresh hnd
      | null =>
        exact bridge_scalarE_step i .null r nk out hnk rfl
          (fun out' hf hn => flattenArrElems_pE r (i + 1) nk out' hw.2 hnk hf hn)
          rfl hfresh hnd
      | undef =>
        exact bridge_scalarE_step i .undef r nk out hnk rfl
          (fun out' hf hn => flattenArrElems_pE r (i + 1) nk out' hw.2 hnk hf hn)
          rfl hfresh hnd
      | fn t =>
        exact bridge_scalarE_step i (.fn t) r nk out hnk rfl
          (fun out' hf hn => flattenArrElems_pE r (i + 1) nk out' hw.2 hnk hf hn)
          rfl hfresh hnd

end

theorem foldl_unfl_eq_foldSD : ∀ (l : List (List String × JSValue)) (root : JSValue),
    (∀ e ∈ l, ∃ k p', e.1 = k :: p' ∧ k ≠ "" ∧ dotFree k = true ∧
      ∀ s ∈ p', dotFree s = true) →
    List.foldl (fun root e => if e.1 = "" then root else setDeep root true (splitDot e.1) e.2)
      root (l.map (fun e => (pathKey "" e.1, coalesce e.2)))
      = foldSD true l root
  | [], _, _ => rfl
  | e :: r, root, h => by
      obtain ⟨k, p', he, hk, hkd, hpd⟩ := h e (List.mem_cons_self _ _)
      simp only [List.map_cons, List.foldl_cons]
      have hne : pathKey "" e.1 ≠ "" := by
        rw [he]
        exact pathKey_ne_empty p' hk
      rw [if_neg hne]
      have hsp : splitDot (pathKey "" e.1) = e.1 := by
        rw [he]
        exact splitDot_pathKey_root p' k hk hkd hpd
      rw [hsp]
      exact foldl_unfl_eq_foldSD r _ (fun e' he' => h e' (List.mem_cons_of_mem _ he'))

theorem unflatten_pE (f : JFields) (h : wfFields f = true) :
    unflatten ((pEfields f).map (fun e => (pathKey "" e.1, coalesce e.2))) = .obj f := by
  rw [unflatten]
  rw [foldl_unfl_eq_foldSD (pEfields f) (.obj .nil)
    (pEfields_entry_good f (wf_keysOkFields f h))]
  rw [foldFields f JFields.nil true h (fun k _ => rfl)]
  rfl

theorem flatten_pE (f : JFields) (h : keysOkFields f = true) :
    flattenJSON (.obj f) "" []
      = (pEfields f).map (fun e => (pathKey "" e.1, coalesce e.2)) := by
  have h1 := flattenFields_pE f "" [] h (fun e _ => rfl) (pE_keys_nodup_root f h)
  rw [List.nil_append] at h1
  rw [flattenJSON, flattenVal]
  exact h1

theorem mapGet_map_of_mem : ∀ (l : List (List String × JSValue)) (p : List String)
    (v : JSValue), (p, v) ∈ l → ((l.map (fun e => pathKey "" e.1)).Nodup) →
    mapGet (l.map (fun e => (pathKey "" e.1, coalesce e.2))) (pathKey "" p)
      = some (coalesce v)
  | [], _, _, hm, _ => absurd hm (List.not_mem_nil _)
  | e :: r, p, v, hm, hnd => by
      simp only [List.map_cons] at hnd ⊢
      rw [List.nodup_cons] at hnd
      rw [mapGet]
      by_cases hk : pathKey "" e.1 = pathKey "" p
      · rw [if_pos hk]
        rcases List.mem_cons.1 hm with rfl | hm'
        · rfl
        · exact absurd (by rw [hk]; exact List.mem_map.2 ⟨(p, v), hm', rfl⟩) hnd.1
      · rw [if_neg hk]
        refine mapGet_map_of_mem r p v ?_ hnd.2
        rcases List.mem_cons.1 hm with rfl | hm'
        · exact absurd rfl hk
        · exact hm'

/-- The in-place conversion of the conflict step: when an index segment meets
an existing non-array node below the root, `setDeep` continues exactly as if
that node had been a fresh empty array - the node's previous contents are
unreachable from here on. -/
theorem setDeep_convert (N : JSValue) (i0 : String) (irest : List String) (y : JSValue)
    (hi0 : isIndex i0 = true) (hN : N.isArr = false) :
    setDeep N false (i0 :: irest) y = setDeep (.arr .nil .nil) false (i0 :: irest) y := by
  have harr : (JSValue.arr JElems.nil JFields.nil).isArr = true := rfl
  cases irest with
  | nil => simp [setDeep, hi0, hN, harr]
  | cons r0 rr => simp [setDeep, hi0, hN, harr]

/-- A fresh empty array is compatible with any path that starts with an index
segment. -/
theorem compat_arr_nil (i0 : String) (irest : List String) (hi0 : isIndex i0 = true) :
    compatW (.arr .nil .nil) false (i0 :: irest) := by
  have h : freshFor i0 = .arr .nil .nil := by simp [freshFor, hi0]
  rw [← h]
  exact compat_fresh i0 irest

/-- A non-index segment on an array addresses the string properties. -/
theorem childGet_arr_name {q : String} (h : isIndex q = false) (el : JElems) (pr : JFields) :
    childGet (.arr el pr) q = objGet pr q := by
  rw [childGet, if_neg (by simp [h])]

/-- One conflict step of `setDeep`: at a container whose child at `s` is an
existing non-array container, a path continuing with an index segment
converts that child to a fresh array and writes into it. -/
theorem setDeep_conflict_base (cur N : JSValue) (s i0 : String) (irest : List String)
    (y : JSValue) (ar : Bool) (hc : isContainer cur = true)
    (hN : childGet cur s = some N) (hNc : isContainer N = true) (hNarr : N.isArr = false)
    (hk : ar = false → isIndex s = true → cur.isArr = true) (hi0 : isIndex i0 = true) :
    setDeep cur ar (s :: i0 :: irest) y
      = childSet cur s (setAt (.arr .nil .nil) (i0 :: irest) y) := by
  rw [setDeep, conv_cond_false hk]
  simp only [Bool.false_eq_true, if_false]
  rw [ensureChild_of_some i0 hN, if_pos hNc]
  rw [setDeep_convert N i0 irest y hi0 hNarr]
  rw [setDeep_eq_setAt (i0 :: irest) (.arr .nil .nil) false y (compat_arr_nil i0 irest hi0)]

/-- The conflict drop along an arbitrary shared prefix: after writing a value
under the prefix extended by a name segment (building a mapping at the prefix),
a second write under the same prefix extended by an index segment replaces
that mapping by a fresh array.  The first write's path reads back `none`, the
node at the prefix is an array, and the second value is reachable. -/
theorem setDeep_conflict_drop : ∀ (p' : List String) (s q0 i0 : String)
    (qrest irest : List String) (cur x y : JSValue) (ar : Bool),
    isContainer cur = true → childGet cur s = none →
    (ar = false → isIndex s = true → cur.isArr = true) →
    isIndex q0 = false → isIndex i0 = true →
    walkGet (setDeep (setAt cur ((s :: p') ++ (q0 :: qrest)) x) ar
        ((s :: p') ++ (i0 :: irest)) y) ((s :: p') ++ (q0 :: qrest)) = none ∧
    (∃ c, walkGet (setDeep (setAt cur ((s :: p') ++ (q0 :: qrest)) x) ar
        ((s :: p') ++ (i0 :: irest)) y) (s :: p') = some c ∧ c.isArr = true) ∧
    walkGet (setDeep (setAt cur ((s :: p') ++ (q0 :: qrest)) x) ar
        ((s :: p') ++ (i0 :: irest)) y) ((s :: p') ++ (i0 :: irest)) = some y
  | [], s, q0, i0, qrest, irest, cur, x, y, ar, hc, hg, hk, hq0, hi0 => by
      simp only [List.cons_append, List.nil_append]
      have hfrq : freshFor q0 = .obj .nil := by simp [freshFor, hq0]
      have hT1 : setAt cur (s :: q0 :: qrest) x
          = childSet cur s (setAt (.obj .nil) (q0 :: qrest) x) := by
        rw [setAt, ensureChild_of_none q0 hg, hfrq]
      rw [hT1]
      have hNc : isContainer (setAt (.obj .nil) (q0 :: qrest) x) = true := by
        rw [setAt_isContainer _ _ _ (List.cons_ne_nil _ _)]
        rfl
      have hNarr : (setAt (.obj .nil) (q0 :: qrest) x).isArr = false := by
        rw [setAt_isArr _ _ _ (List.cons_ne_nil _ _)]
        rfl
      have hcc : isContainer (childSet cur s (setAt (.obj .nil) (q0 :: qrest) x)) = true := by
        rw [childSet_isContainer]
        exact hc
      rw [setDeep_conflict_base (childSet cur s (setAt (.obj .nil) (q0 :: qrest) x))
        (setAt (.obj .nil) (q0 :: qrest) x) s i0 irest y ar hcc
        (childGet_childSet_self hc s _) hNc hNarr
        (fun har hi => by rw [childSet_isArr]; exact hk har hi) hi0]
      have hga : childGet (childSet (childSet cur s (setAt (.obj .nil) (q0 :: qrest) x)) s
          (setAt (.arr .nil .nil) (i0 :: irest) y)) s
          = some (setAt (.arr .nil .nil) (i0 :: irest) y) :=
        childGet_childSet_self hcc s _
      have hAarr : (setAt (.arr .nil .nil) (i0 :: irest) y).isArr = true := by
        rw [setAt_isArr _ _ _ (List.cons_ne_nil _ _)]
        rfl
      have hAq : childGet (setAt (.arr .nil .nil) (i0 :: irest) y) q0 = none := by
        cases irest with
        | nil => rw [setAt, childSet_arr_index hi0, childGet_arr_name hq0]; rfl
        | cons r0 rr => rw [setAt, childSet_arr_index hi0, childGet_arr_name hq0]; rfl
      refine ⟨?_, ⟨_, ?_, hAarr⟩, ?_⟩
      · rw [walkGet, hga]
        show walkGet (setAt (.arr .nil .nil) (i0 :: irest) y) (q0 :: qrest) = none
        rw [walkGet, hAq]
      · rw [walkGet, hga]
        rfl
      · rw [walkGet, hga]
        show walkGet (setAt (.arr .nil .nil) (i0 :: irest) y) (i0 :: irest) = some y
        exact walkGet_setAt (i0 :: irest) _ y (List.cons_ne_nil _ _) rfl
  | s2 :: p'', s, q0, i0, qrest, irest, cur, x, y, ar, hc, hg, hk, hq0, hi0 => by
      simp only [List.cons_append]
      have hT1 : setAt cur (s :: s2 :: (p'' ++ q0 :: qrest)) x
          = childSet cur s (setAt (freshFor s2) (s2 :: (p'' ++ q0 :: qrest)) x) := by
        rw [setAt, ensureChild_of_none s2 hg]
      rw [hT1]
      have hrecC : isContainer (setAt (freshFor s2) (s2 :: (p'' ++ q0 :: qrest)) x) = true := by
        rw [setAt_isContainer _ _ _ (List.cons_ne_nil _ _)]
        exact freshFor_container s2
      have hT1c : isContainer (childSet cur s
          (setAt (freshFor s2) (s2 :: (p'' ++ q0 :: qrest)) x)) = true := by
        rw [childSet_isContainer]
        exact hc
      have hT2 : setDeep (childSet cur s (setAt (freshFor s2) (s2 :: (p'' ++ q0 :: qrest)) x))
          ar (s :: s2 :: (p'' ++ i0 :: irest)) y
          = childSet (childSet cur s (setAt (freshFor s2) (s2 :: (p'' ++ q0 :: qrest)) x)) s
              (setDeep (setAt (freshFor s2) (s2 :: (p'' ++ q0 :: qrest)) x) false
                (s2 :: (p'' ++ i0 :: irest)) y) := by
        rw [setDeep, conv_cond_false (fun har hi => by rw [childSet_isArr]; exact hk har hi)]
        simp only [Bool.false_eq_true, if_false]
        rw [ensureChild_of_some s2 (childGet_childSet_self hc s _), if_pos hrecC]
      rw [hT2]
      obtain ⟨ha, ⟨c, hb, hbarr⟩, hcy⟩ := setDeep_conflict_drop p'' s2 q0 i0 qrest irest
        (freshFor s2) x y false (freshFor_container s2) (childGet_fresh s2 s2)
        (fun _ hi => freshFor_isArr_of_index hi) hq0 hi0
      simp only [List.cons_append] at ha hb hcy
      have hga : childGet (childSet
          (childSet cur s (setAt (freshFor s2) (s2 :: (p'' ++ q0 :: qrest)) x)) s
          (setDeep (setAt (freshFor s2) (s2 :: (p'' ++ q0 :: qrest)) x) false
            (s2 :: (p'' ++ i0 :: irest)) y)) s
          = some (setDeep (setAt (freshFor s2) (s2 :: (p'' ++ q0 :: qrest)) x) false
            (s2 :: (p'' ++ i0 :: irest)) y) :=
        childGet_childSet_self hT1c s _
      refine ⟨?_, ⟨c, ?_, hbarr⟩, ?_⟩
      · rw [walkGet, hga]
        exact ha
      · rw [walkGet, hga]
        exact hb
      · rw [walkGet, hga]
        exact hcy

/-- C2, amended: for any prefix conflict - a key `K ++ "." ++ Q` that uses the
prefix `K` in mapping-key context (the next segment `q0` is not numeric) and
a key `K ++ "." ++ R` that uses the same prefix in index context (the next
segment `i0` is numeric) - `unflatten` raises no error: when the index-context
entry arrives, the mapping built at `K` is replaced by a fresh array, so the
mapping-context data is silently dropped (reading the first key back yields
nothing, whatever its value `x` was), the node at `K` is an array afterwards,
and only the index-context value `y` survives. -/
theorem c2_conflict_silent_drop (K Q R q0 i0 : String) (qrest irest : List String)
    (x y : JSValue) (hK : K ≠ "")
    (hQs : splitDot Q = q0 :: qrest) (hq0 : isIndex q0 = false)
    (hRs : splitDot R = i0 :: irest) (hi0 : isIndex i0 = true) :
    walkGet (unflatten [(K ++ "." ++ Q, x), (K ++ "." ++ R, y)])
        (splitDot (K ++ "." ++ Q)) = none ∧
    (∃ c, walkGet (unflatten [(K ++ "." ++ Q, x), (K ++ "." ++ R, y)])
        (splitDot K) = some c ∧ c.isArr = true) ∧
    walkGet (unflatten [(K ++ "." ++ Q, x), (K ++ "." ++ R, y)])
        (splitDot (K ++ "." ++ R)) = some y := by
  have hK1 : K ++ "." ++ Q ≠ "" := append_dot_ne_empty K Q
  have hK2 : K ++ "." ++ R ≠ "" := append_dot_ne_empty K R
  rw [unflatten_two x y hK1 hK2]
  rw [splitDot_append K Q, splitDot_append K R, hQs, hRs]
  obtain ⟨s, p', hP⟩ : ∃ s p', splitDot K = s :: p' := by
    cases h : splitDot K with
    | nil => exact absurd h (splitDot_ne_nil K)
    | cons s p' => exact ⟨s, p', rfl⟩
  rw [hP]
  rw [setDeep_eq_setAt _ _ _ _ (compat_obj_nil_true _)]
  exact setDeep_conflict_drop p' s q0 i0 qrest irest (.obj .nil) x y true rfl rfl
    (fun h _ => Bool.noConfusion h) hq0 hi0

/-- Witness for `c2_conflict_silent_drop` at the spec's own example
`{"a.b.c": "x", "a.0.b": "y"}` (K = "a", Q = "b.c", R = "0.b"). -/
theorem c2_conflict_silent_drop_witness :
    (("a" : String) ≠ "" ∧ splitDot "b.c" = ["b", "c"] ∧ isIndex "b" = false ∧
      splitDot "0.b" = ["0", "b"] ∧ isIndex "0" = true) ∧
    (walkGet (unflatten [("a" ++ "." ++ "b.c", JSValue.str "x"),
        ("a" ++ "." ++ "0.b", JSValue.str "y")]) (splitDot ("a" ++ "." ++ "b.c")) = none ∧
      (∃ c, walkGet (unflatten [("a" ++ "." ++ "b.c", JSValue.str "x"),
          ("a" ++ "." ++ "0.b", JSValue.str "y")]) (splitDot "a") = some c ∧
        c.isArr = true) ∧
      walkGet (unflatten [("a" ++ "." ++ "b.c", JSValue.str "x"),
          ("a" ++ "." ++ "0.b", JSValue.str "y")]) (splitDot ("a" ++ "." ++ "0.b"))
        = some (JSValue.str "y")) :=
  ⟨⟨by decide, rfl, rfl, rfl, rfl⟩,
    c2_conflict_silent_drop "a" "b.c" "0.b" "b" "0" ["c"] ["b"]
      (.str "x") (.str "y") (by decide) rfl rfl rfl rfl⟩

/-- C1: for well-formed mapping-rooted trees the round trip holds:
unflattening the flat map produced by `flattenJSON` returns the tree itself. -/
theorem c1_round_trip (T : JSValue) (h : wfTree T = true) :
    unflatten (flattenJSON T "" []) = T := by
  cases T with
  | obj f =>
      have hf : wfFields f = true := h
      rw [flatten_pE f (wf_keysOkFields f hf), unflatten_pE f hf]
  | arr el pr => exact Bool.noConfusion h
  | str s => exact Bool.noConfusion h
  | num n => exact Bool.noConfusion h
  | bool b => exact Bool.noConfusion h
  | null => exact Bool.noConfusion h
  | undef => exact Bool.noConfusion h
  | fn t => exact Bool.noConfusion h

theorem c1_round_trip_witness :
    wfTree (.obj (.cons "a" (.str "x") (.cons "l"
      (.arr (.elem (.str "y") (.elem (.obj (.cons "b" (.str "z") .nil)) .nil)) .nil)
      .nil))) = true ∧
    unflatten (flattenJSON (.obj (.cons "a" (.str "x") (.cons "l"
      (.arr (.elem (.str "y") (.elem (.obj (.cons "b" (.str "z") .nil)) .nil)) .nil)
      .nil))) "" [])
      = .obj (.cons "a" (.str "x") (.cons "l"
      (.arr (.elem (.str "y") (.elem (.obj (.cons "b" (.str "z") .nil)) .nil)) .nil)
      .nil)) :=
  ⟨rfl, c1_round_trip _ rfl⟩

/-- C1 counterexample: a well-formed root-level sequence does not round-trip;
its element comes back as a numeric-looking key on a root mapping. -/
theorem c1_root_array_not_round_trip :
    unflatten (flattenJSON (.arr (.elem (.str "x") .nil) .nil) "" [])
      ≠ .arr (.elem (.str "x") .nil) .nil :=
  ne_of_beqVal_false rfl

/-- C6 corrected: a null leaf reachable through objects and arrays (never through
a nested array) is emitted at its dotted path with the empty string as value. -/
theorem c6_null_leaf_maps_to_empty (f : JFields) (p : List String)
    (h : keysOkFields f = true) (hm : (p, JSValue.null) ∈ pEfields f) :
    mapGet (flattenJSON (.obj f) "" []) (pathKey "" p) = some (.str "") := by
  rw [flatten_pE f h]
  exact mapGet_map_of_mem (pEfields f) p JSValue.null hm (pE_keys_nodup_root f h)

theorem c6_null_leaf_maps_to_empty_witness :
    keysOkFields (.cons "a" JSValue.null .nil) = true ∧
    (["a"], JSValue.null) ∈ pEfields (.cons "a" JSValue.null .nil) ∧
    mapGet (flattenJSON (.obj (.cons "a" JSValue.null .nil)) "" []) (pathKey "" ["a"])
      = some (.str "") :=
  ⟨rfl, List.mem_singleton.2 rfl,
    c6_null_leaf_maps_to_empty _ _ rfl (List.mem_singleton.2 rfl)⟩

/-- C3 counterexample: the well-formed one-entry map at key "a.00" (unique keys,
no kind conflict, no prefix pair) is not recovered: the non-canonical index
segment "00" is coerced through `Number` and re-emitted as "a.0". -/
theorem c3_noncanonical_index_not_inverse :
    mapGet (flattenJSON (unflatten [("a.00", JSValue.str "x")]) "" []) "a.00" = none ∧
    mapGet [("a.00", JSValue.str "x")] "a.00" = some (.str "x") :=
  ⟨rfl, rfl⟩

/-- C3 corrected: flatten is a left inverse of unflatten on the flat maps that
arise as flattenings of well-formed mapping-rooted trees (entry-for-entry,
including order). -/
theorem c3_flatten_unflatten_id (f : JFields) (h : wfFields f = true) :
    flattenJSON (unflatten (flattenJSON (.obj f) "" [])) "" []
      = flattenJSON (.obj f) "" [] := by
  rw [flatten_pE f (wf_keysOkFields f h), unflatten_pE f h,
    flatten_pE f (wf_keysOkFields f h)]

theorem c3_flatten_unflatten_id_witness :
    wfFields (.cons "list" (.arr (.elem (.str "a") (.elem (.str "b") .nil)) .nil) .nil)
      = true ∧
    flattenJSON (unflatten (flattenJSON
        (.obj (.cons "list" (.arr (.elem (.str "a") (.elem (.str "b") .nil)) .nil) .nil))
        "" [])) "" []
      = flattenJSON
          (.obj (.cons "list" (.arr (.elem (.str "a") (.elem (.str "b") .nil)) .nil) .nil))
          "" [] :=
  ⟨rfl, c3_flatten_unflatten_id _ rfl⟩

end XlsxJson
